import Mathlib

/-!
Verification of the squashfs-tools-ng meta-data transport layer.

This file embeds, in Lean, the parts of the repository that the claims
are about:

* `sqfs_data_reader_dump` (src/lib/sqfshelper/data_reader_dump.c) — the
  file-content reconstruction routine, modelled as a pure function from
  an environment of capabilities (block fetch, fragment fetch, sink
  operations, each of which may fail) to a trace of sink/resource events
  together with a success/failure outcome.

* The MetaWriter and MetaReader pair (declared in the headers
  src/unnamed/part_000 (meta_writer.h) and src/include/sqfs/meta_reader.h;
  the implementations are not part of the visible sources and are modelled
  from the specification).

Machine integers are modelled as `Nat` with explicit reduction modulo
`2 ^ 64` exactly where the C code can wrap (`filesz -= blk->size` on a
`uint64_t`).
-/

namespace Sqfs

/-- 2^64, the modulus of the C `uint64_t` arithmetic. -/
def U64 : Nat := 2 ^ 64

/-- Wrapping `uint64_t` subtraction `a - b` as in C (result taken mod 2^64;
`a` is assumed already reduced). -/
def wsub64 (a b : Nat) : Nat := (a + (U64 - b % U64)) % U64

/-!
## Data model for `sqfs_data_reader_dump`

The inode's `block_sizes` array is consulted by the dump routine only
through the sparse test `SQFS_IS_SPARSE_BLOCK`; the stored size value is
never used (the fetched block carries its own size).  We therefore model
an entry as either the sparse sentinel or a stored on-disk size.
-/

/-- One entry of a file inode's `block_sizes` list: either the sparse
sentinel or a concrete stored size. -/
inductive BSizeEntry where
  | sparse : BSizeEntry
  | stored (onDisk : Nat) : BSizeEntry
deriving DecidableEq, Repr

/-- `SQFS_IS_SPARSE_BLOCK` on our entry model. -/
def BSizeEntry.isSparse : BSizeEntry → Bool
  | .sparse => true
  | .stored _ => false

/-- The fields of a file inode consulted by `sqfs_data_reader_dump`:
`sqfs_inode_get_file_size` and the `block_sizes` / `num_file_blocks`
pair (`num_file_blocks` is the list length). -/
structure InodeFile where
  fileSize : Nat
  blockSizes : List BSizeEntry
deriving DecidableEq, Repr

/-- A data block as returned by the block / fragment fetch capabilities
(`sqfs_block_t`): a byte buffer; `blk->size` is its length. -/
structure SqfsBlock where
  data : List Nat
deriving DecidableEq, Repr

/-- Identity of a fetched block within one dump call: the i-th data block
or the fragment block. -/
inductive BlkId where
  | blk (i : Nat) : BlkId
  | frag : BlkId
deriving DecidableEq, Repr

/-- Observable events of one `sqfs_data_reader_dump` call, in order:
sink pre-sizing (`ftruncate`), hole creation (`lseek(outfd, diff,
SEEK_CUR)`), a data write (`write_data`), and the acquisition/release of
a fetched block (`sqfs_data_reader_get_block` / `_get_fragment`
succeeding, and the matching `free(blk)`). -/
inductive DumpEv where
  | truncate (n : Nat) : DumpEv
  | hole (n : Nat) : DumpEv
  | write (bs : List Nat) : DumpEv
  | fetched (id : BlkId) : DumpEv
  | freed (id : BlkId) : DumpEv
deriving DecidableEq, Repr

/-- The distinct failure conditions of `sqfs_data_reader_dump`: the
`fail_sparse` label ("creating sparse output file"), a data-block fetch
error, a `write_data` error, and a fragment fetch error. -/
inductive DumpErr where
  | sparseFail : DumpErr
  | blockErr : DumpErr
  | writeErr : DumpErr
  | fragErr : DumpErr
deriving DecidableEq, Repr

/-- The capabilities and fallible sink operations `sqfs_data_reader_dump`
calls out to: `sqfs_data_reader_get_block` (per block index),
`sqfs_data_reader_get_fragment`, and whether `ftruncate`, the `lseek`
at block index `i`, the `write_data` of block `i`, and the `write_data`
of the fragment succeed. -/
structure DumpEnv where
  getBlock : Nat → Option SqfsBlock
  getFragment : Option SqfsBlock
  truncOk : Bool
  lseekOk : Nat → Bool
  writeOk : Nat → Bool
  writeFragOk : Bool

/-- The block loop of `sqfs_data_reader_dump` (data_reader_dump.c lines
33-63): walks the `block_sizes` entries in order starting at index `i`
with `filesz` bytes still unaccounted.  A sparse entry with sparse output
allowed skips `min(filesz, block_size)` bytes via `lseek`; otherwise the
block is fetched, written and freed, and `filesz` is decremented by the
block's size with wrapping `uint64_t` subtraction.  Returns the event
trace and either the remaining `filesz` or the error taken. -/
def dumpBlocks (env : DumpEnv) (allowSparse : Bool) (blockSize : Nat) :
    List BSizeEntry → Nat → Nat → List DumpEv × Except DumpErr Nat
  | [], _, filesz => ([], .ok filesz)
  | e :: rest, i, filesz =>
    if e.isSparse && allowSparse then
      let diff := if filesz < blockSize then filesz else blockSize
      let filesz' := if filesz < blockSize then 0 else filesz - blockSize
      if env.lseekOk i then
        let r := dumpBlocks env allowSparse blockSize rest (i + 1) filesz'
        (.hole diff :: r.1, r.2)
      else
        ([], .error .sparseFail)
    else
      match env.getBlock i with
      | none => ([], .error .blockErr)
      | some blk =>
        if env.writeOk i then
          let r := dumpBlocks env allowSparse blockSize rest (i + 1)
              (wsub64 filesz blk.data.length)
          (.fetched (.blk i) :: .write blk.data :: .freed (.blk i) :: r.1, r.2)
        else
          ([.fetched (.blk i), .freed (.blk i)], .error .writeErr)

/-- `sqfs_data_reader_dump` (data_reader_dump.c lines 19-84): pre-size the
sink when sparse output is allowed (failure is the `fail_sparse`
condition), run the block loop, and, if bytes remain, fetch and write the
fragment tail.  Produces the event trace (partial output on failure is
kept, as in the C code) and the outcome. -/
def sqfs_data_reader_dump (env : DumpEnv) (inode : InodeFile)
    (blockSize : Nat) (allowSparse : Bool) : List DumpEv × Except DumpErr Unit :=
  let filesz := inode.fileSize % U64
  if allowSparse && !env.truncOk then
    ([], .error .sparseFail)
  else
    let pre : List DumpEv := if allowSparse then [.truncate filesz] else []
    let res := dumpBlocks env allowSparse blockSize inode.blockSizes 0 filesz
    match res.2 with
    | .error e => (pre ++ res.1, .error e)
    | .ok rem =>
      if 0 < rem then
        match env.getFragment with
        | none => (pre ++ res.1, .error .fragErr)
        | some blk =>
          if env.writeFragOk then
            (pre ++ res.1 ++ [.fetched .frag, .write blk.data, .freed .frag], .ok ())
          else
            (pre ++ res.1 ++ [.fetched .frag, .freed .frag], .error .writeErr)
      else
        (pre ++ res.1, .ok ())

/-!
## Output-content semantics for the dump trace

The sink is a regular file: `ftruncate` resizes it (zero-filling on
growth), `lseek(·, SEEK_CUR)` advances the position without writing
(bytes inside the file that are skipped stay as they are — zero in a hole
of a freshly truncated file), and `write` overwrites at the current
position, zero-extending first if the position is past the end.
-/

/-- `n` zero bytes. -/
def zeros (n : Nat) : List Nat := List.replicate n 0

/-- `ftruncate` semantics on a byte-list file. -/
def truncTo (c : List Nat) (n : Nat) : List Nat :=
  if n ≤ c.length then c.take n else c ++ zeros (n - c.length)

/-- `write` at position `pos`: zero-extend to `pos` if needed, then
overwrite `bs.length` bytes. -/
def writeAt (c : List Nat) (pos : Nat) (bs : List Nat) : List Nat :=
  let c' := if pos ≤ c.length then c else c ++ zeros (pos - c.length)
  c'.take pos ++ bs ++ c'.drop (pos + bs.length)

/-- One dump event acting on the sink state (content, position). -/
def applyEv : List Nat × Nat → DumpEv → List Nat × Nat
  | (c, pos), .truncate n => (truncTo c n, pos)
  | (c, pos), .hole n => (c, pos + n)
  | (c, pos), .write bs => (writeAt c pos bs, pos + bs.length)
  | (c, pos), .fetched _ => (c, pos)
  | (c, pos), .freed _ => (c, pos)

/-- A dump trace acting on the sink state. -/
def applyEvents (evs : List DumpEv) (st : List Nat × Nat) : List Nat × Nat :=
  evs.foldl applyEv st

/-- The file content produced by a dump trace on an initially empty sink. -/
def outputContent (evs : List DumpEv) : List Nat :=
  (applyEvents evs ([], 0)).1

/-!
## Run preconditions and the remaining-byte counter
-/

/-- The run-time precondition of the numerical claim: every fetch and
write succeeds, and each fetched block's size is at most the remaining
byte count at the moment it is written. -/
def FitsRun (env : DumpEnv) (allowSparse : Bool) (blockSize : Nat) :
    List BSizeEntry → Nat → Nat → Prop
  | [], _, _ => True
  | e :: rest, i, filesz =>
    if e.isSparse && allowSparse then
      env.lseekOk i = true ∧
        FitsRun env allowSparse blockSize rest (i + 1) (filesz - min filesz blockSize)
    else
      ∃ blk, env.getBlock i = some blk ∧ env.writeOk i = true ∧
        blk.data.length ≤ filesz ∧
        FitsRun env allowSparse blockSize rest (i + 1) (filesz - blk.data.length)

/-- The value of the remaining-byte counter after the block loop, under
exact (non-wrapping) subtraction. -/
def remAfter (env : DumpEnv) (allowSparse : Bool) (blockSize : Nat) :
    List BSizeEntry → Nat → Nat → Nat
  | [], _, filesz => filesz
  | e :: rest, i, filesz =>
    if e.isSparse && allowSparse then
      remAfter env allowSparse blockSize rest (i + 1) (filesz - min filesz blockSize)
    else
      match env.getBlock i with
      | some blk => remAfter env allowSparse blockSize rest (i + 1) (filesz - blk.data.length)
      | none => 0

/-- The block data the block-fetch capability returns at index `i`
(empty if the fetch fails; only used under `EnvOk`, which rules
failure out). -/
def blockDataAt (env : DumpEnv) (i : Nat) : List Nat :=
  match env.getBlock i with
  | some blk => blk.data
  | none => []

/-- Modelled from the spec: the contract of the external
`sqfs_data_reader_get_block` capability, whose implementation (the data
reader/block cache) is not among the visible sources.  Per spec §4.3 and
§8, each fetched block accounts for `min(remaining, block_size)` bytes of
the file, and for a sparse-tagged entry the capability produces that many
zero bytes (the explicit zero-fill of the non-sparse fallback).  `EnvOk`
also requires every fetch and sink operation of the run to succeed. -/
def EnvOk (env : DumpEnv) (blockSize : Nat) :
    List BSizeEntry → Nat → Nat → Prop
  | [], _, _ => True
  | e :: rest, i, rem =>
    (∃ blk, env.getBlock i = some blk ∧ blk.data.length = min rem blockSize ∧
        (e.isSparse = true → blk.data = zeros (min rem blockSize)))
      ∧ env.writeOk i = true ∧ env.lseekOk i = true
      ∧ EnvOk env blockSize rest (i + 1) (rem - min rem blockSize)

/-- The logical bytes the block loop accounts for, entry by entry:
`min(remaining, block_size)` zeros for a sparse entry, the fetched
block's bytes otherwise. -/
def loopData (env : DumpEnv) (blockSize : Nat) :
    List BSizeEntry → Nat → Nat → List Nat
  | [], _, _ => []
  | e :: rest, i, rem =>
    (if e.isSparse then zeros (min rem blockSize) else blockDataAt env i)
      ++ loopData env blockSize rest (i + 1) (rem - min rem blockSize)

/-- The remaining byte count after the block loop, when every entry
accounts for `min(remaining, block_size)` bytes. -/
def looseEnd (blockSize : Nat) : List BSizeEntry → Nat → Nat
  | [], rem => rem
  | _ :: rest, rem => looseEnd blockSize rest (rem - min rem blockSize)

/-- The event trace of the block loop with sparse output disabled: every
entry — sparse ones included — is fetched, written and freed; a sparse
entry's write is an explicit zero-fill write. -/
def nsTraceSpec (env : DumpEnv) (blockSize : Nat) :
    List BSizeEntry → Nat → Nat → List DumpEv
  | [], _, _ => []
  | e :: rest, i, rem =>
    .fetched (.blk i)
      :: .write (if e.isSparse then zeros (min rem blockSize) else blockDataAt env i)
      :: .freed (.blk i)
      :: nsTraceSpec env blockSize rest (i + 1) (rem - min rem blockSize)

/-- The event trace of the block loop with sparse output enabled: a hole
for each sparse entry, fetch/write/free for the rest. -/
def sTraceSpec (env : DumpEnv) (blockSize : Nat) :
    List BSizeEntry → Nat → Nat → List DumpEv
  | [], _, _ => []
  | e :: rest, i, rem =>
    if e.isSparse then
      .hole (min rem blockSize)
        :: sTraceSpec env blockSize rest (i + 1) (rem - min rem blockSize)
    else
      .fetched (.blk i) :: .write (blockDataAt env i) :: .freed (.blk i)
        :: sTraceSpec env blockSize rest (i + 1) (rem - min rem blockSize)

/-- An environment where every capability succeeds, used to instantiate
theorems at concrete inputs. -/
def envAll : DumpEnv where
  getBlock := fun _ => some ⟨[1, 2, 3]⟩
  getFragment := some ⟨[7]⟩
  truncOk := true
  lseekOk := fun _ => true
  writeOk := fun _ => true
  writeFragOk := true

/-- An all-success environment with the standard block layout for
`blockSize = 4`, `fileSize = 10`, entries `[sparse, stored]`: block 0 is
four zero bytes, block 1 is four data bytes, the fragment carries the
two remaining bytes. -/
def envC5 : DumpEnv where
  getBlock := fun i => if i = 0 then some ⟨[0, 0, 0, 0]⟩ else some ⟨[1, 2, 3, 4]⟩
  getFragment := some ⟨[7, 8]⟩
  truncOk := true
  lseekOk := fun _ => true
  writeOk := fun _ => true
  writeFragOk := true

/-- An environment where the sink cannot be pre-sized, block 0 cannot be
fetched, the write of block 1 fails, and the fragment cannot be fetched. -/
def envFail : DumpEnv where
  getBlock := fun i => if i = 1 then some ⟨[9]⟩ else none
  getFragment := none
  truncOk := false
  lseekOk := fun _ => true
  writeOk := fun _ => false
  writeFragOk := false

/-- An environment where the fragment can be fetched but writing it to
the sink fails. -/
def envFragWriteFail : DumpEnv where
  getBlock := fun _ => none
  getFragment := some ⟨[7]⟩
  truncOk := true
  lseekOk := fun _ => true
  writeOk := fun _ => false
  writeFragOk := false

/-!
## MetaWriter (modelled from the spec)

Only the interface of the meta writer (meta_writer.h, src/unnamed/part_000)
is among the visible sources; the state and the behavior of its operations
are modelled from the specification (§4.2, §6).
-/

/-- The fixed uncompressed capacity of a meta-data block: 8192 bytes. -/
def capacity : Nat := 8192

/-- Modelled from the spec: the MetaWriter state (`sqfs_meta_writer_t`,
whose definition is not among the visible sources): the in-progress
`pending` block (never exceeding `capacity`), the absolute offset
`blockStart` at which the next block will be emitted, and the byte
stream `out` emitted so far. -/
structure MetaWriter where
  pending : List Nat
  blockStart : Nat
  out : List Nat
deriving DecidableEq, Repr

/-- The initial writer state. -/
def initWriter : MetaWriter := ⟨[], 0, []⟩

/-- The bytes actually stored for a payload: the compressor's output if
it is strictly smaller than the raw payload, the raw payload otherwise
(also on compressor failure). -/
def storedPayload (cmp : List Nat → Option (List Nat)) (payload : List Nat) : List Nat :=
  match cmp payload with
  | some c => if c.length < payload.length then c else payload
  | none => payload

/-- Whether the payload is stored uncompressed. -/
def storedUncompressed (cmp : List Nat → Option (List Nat)) (payload : List Nat) : Bool :=
  match cmp payload with
  | some c => if c.length < payload.length then false else true
  | none => true

/-- The 2-byte block header as a 16-bit word: low 15 bits hold the
on-disk payload size, the top bit is set when the payload is stored
uncompressed (spec §6, bit-exact block-store layout). -/
def headerWord (cmp : List Nat → Option (List Nat)) (payload : List Nat) : Nat :=
  (storedPayload cmp payload).length
    + (if storedUncompressed cmp payload then 32768 else 0)

/-- One encoded on-disk meta-data block: the header word little-endian,
then the stored payload. -/
def encodeBlock (cmp : List Nat → Option (List Nat)) (payload : List Nat) : List Nat :=
  headerWord cmp payload % 256 :: headerWord cmp payload / 256
    :: storedPayload cmp payload

/-- Modelled from the spec: `sqfs_meta_writer_flush` (implementation not
among the visible sources) — compress and emit the pending block (no-op
when `pending` is empty), advance `blockStart` by the number of bytes
physically written (header + payload), and empty `pending`. -/
def sqfs_meta_writer_flush (cmp : List Nat → Option (List Nat))
    (m : MetaWriter) : MetaWriter :=
  if m.pending = [] then m
  else
    { pending := []
      blockStart := m.blockStart + (encodeBlock cmp m.pending).length
      out := m.out ++ encodeBlock cmp m.pending }

/-- Append one byte to the pending block, flushing when it reaches
capacity. -/
def appendByte (cmp : List Nat → Option (List Nat)) (m : MetaWriter) (b : Nat) :
    MetaWriter :=
  let m' : MetaWriter := { m with pending := m.pending ++ [b] }
  if m'.pending.length = capacity then sqfs_meta_writer_flush cmp m' else m'

/-- Modelled from the spec: `sqfs_meta_writer_append` (implementation not
among the visible sources) — copy the bytes into `pending`, triggering an
implicit flush whenever `pending` reaches capacity, so a single append
may span several emitted blocks. -/
def sqfs_meta_writer_append (cmp : List Nat → Option (List Nat))
    (m : MetaWriter) (data : List Nat) : MetaWriter :=
  data.foldl (appendByte cmp) m

/-- `sqfs_meta_writer_get_position`: the position the next appended byte
would land at — the current block start and the length of `pending`. -/
def sqfs_meta_writer_get_position (m : MetaWriter) : Nat × Nat :=
  (m.blockStart, m.pending.length)

/-- A compressor that always fails, so every payload is stored
uncompressed. -/
def cmpNone : List Nat → Option (List Nat) := fun _ => none

/-!
## MetaReader (modelled from the spec)

Only the interface of the meta reader (src/include/sqfs/meta_reader.h) is
among the visible sources; the state and the behavior of its operations
are modelled from the specification (§4.1, §6, §7).
-/

/-- The error taxonomy of the reader (spec §7). -/
inductive RdErr where
  | outOfBounds : RdErr
  | corrupt : RdErr
  | compression : RdErr
  | io : RdErr
deriving DecidableEq, Repr

/-- Modelled from the spec: the MetaReader state (`sqfs_meta_reader_t`,
whose definition is not among the visible sources): the backing byte
region `img`, the window `[start, limit)`, the currently loaded block
(its decoded bytes and its on-disk payload size) with its absolute
start, and the in-block cursor. -/
structure MetaReader where
  img : List Nat
  start : Nat
  limit : Nat
  blockStart : Nat
  block : Option (List Nat × Nat)
  offset : Nat
deriving DecidableEq, Repr

/-- Modelled from the spec: fetch and decode the meta-data block at
absolute position `bs`: read the 2-byte header (low 15 bits = on-disk
payload size, top bit = stored uncompressed), read that many payload
bytes, and decompress unless stored uncompressed, the decoded size being
bounded by `capacity`.  Returns the decoded bytes and the on-disk
payload size. -/
def loadBlock (decomp : List Nat → Option (List Nat)) (img : List Nat) (bs : Nat) :
    Except RdErr (List Nat × Nat) :=
  match img.drop bs with
  | b0 :: b1 :: rest =>
    let w := b0 + 256 * b1
    let size := w % 32768
    if size ≤ rest.length then
      let raw := rest.take size
      if 32768 ≤ w then .ok (raw, size)
      else
        match decomp raw with
        | some d => if d.length ≤ capacity then .ok (d, size) else .error .corrupt
        | none => .error .compression
    else .error .io
  | _ => .error .io

/-- Load the block at `bs` and position the cursor at `off` (which must
not exceed the decoded block's length). -/
def seekLoad (decomp : List Nat → Option (List Nat)) (m : MetaReader)
    (bs off : Nat) : Except RdErr MetaReader :=
  match loadBlock decomp m.img bs with
  | .error e => .error e
  | .ok blk =>
    if off ≤ blk.1.length then
      .ok { m with blockStart := bs, block := some blk, offset := off }
    else .error .outOfBounds

/-- Modelled from the spec: `sqfs_meta_reader_seek` (implementation not
among the visible sources) — a `block_start` outside `[start, limit)`
fails with `OutOfBounds` before anything is fetched; the already-loaded
block is reused when `block_start` matches it; otherwise the target
block is fetched and decoded; the cursor is set to `offset`. -/
def sqfs_meta_reader_seek (decomp : List Nat → Option (List Nat))
    (m : MetaReader) (bs off : Nat) : Except RdErr MetaReader :=
  if bs < m.start ∨ m.limit ≤ bs then .error .outOfBounds
  else
    match m.block with
    | some blk =>
      if m.blockStart = bs then
        if off ≤ blk.1.length then .ok { m with offset := off }
        else .error .outOfBounds
      else seekLoad decomp m bs off
    | none => seekLoad decomp m bs off

/-- `sqfs_meta_reader_get_position`: the position the next read will
read from. -/
def sqfs_meta_reader_get_position (m : MetaReader) : Nat × Nat :=
  (m.blockStart, m.offset)

/-- The fuel-indexed worker of `sqfs_meta_reader_read`: copy bytes from
the current block's cursor; when the block is exhausted, load the next
sequential block (its start advances by the consumed physical size:
2-byte header plus on-disk payload) and continue — failing if that start
leaves the window.  The fuel only bounds the loop; `sqfs_meta_reader_read`
supplies enough for every run that stays inside the window. -/
def readGo (decomp : List Nat → Option (List Nat)) :
    Nat → MetaReader → Nat → Except RdErr (List Nat × MetaReader)
  | 0, _, _ => .error .io
  | _ + 1, m, 0 => .ok ([], m)
  | fuel + 1, m, n + 1 =>
    match m.block with
    | none => .error .io
    | some (data, size) =>
      if h : m.offset < data.length then
        match readGo decomp fuel { m with offset := m.offset + 1 } n with
        | .error e => .error e
        | .ok (out, m') => .ok (data.get ⟨m.offset, h⟩ :: out, m')
      else
        if m.blockStart + 2 + size < m.start ∨ m.limit ≤ m.blockStart + 2 + size then
          .error .outOfBounds
        else
          match loadBlock decomp m.img (m.blockStart + 2 + size) with
          | .error e => .error e
          | .ok blk => readGo decomp fuel
              { m with blockStart := m.blockStart + 2 + size,
                       block := some blk, offset := 0 } (n + 1)

/-- Modelled from the spec: `sqfs_meta_reader_read` (implementation not
among the visible sources) — read `n` bytes starting at the cursor,
transparently crossing block boundaries. -/
def sqfs_meta_reader_read (decomp : List Nat → Option (List Nat))
    (m : MetaReader) (n : Nat) : Except RdErr (List Nat × MetaReader) :=
  readGo decomp (n + m.limit + 1) m n

/-- A fresh reader over `img` scoped to `[start, limit)`
(`sqfs_meta_reader_create`). -/
def sqfs_meta_reader_create (img : List Nat) (start limit : Nat) : MetaReader :=
  ⟨img, start, limit, 0, none, 0⟩

/-!
## Round-trip runs: writer operation sequences and recorded positions
-/

/-- One writer operation of a round-trip run: append a record (recording
the writer position first, as tables do when storing back-references) or
an explicit flush. -/
inductive WOp where
  | append (record : List Nat) : WOp
  | flush : WOp
deriving DecidableEq, Repr

/-- A recorded back-reference: the `(block_start, offset)` position
returned by `sqfs_meta_writer_get_position` just before the record was
appended, together with the record. -/
structure PosRec where
  blockStart : Nat
  offset : Nat
  record : List Nat
deriving DecidableEq, Repr

/-- Run a sequence of writer operations, collecting the recorded
position of every appended record. -/
def runWriter (cmp : List Nat → Option (List Nat)) :
    List WOp → MetaWriter → List PosRec × MetaWriter
  | [], m => ([], m)
  | .flush :: ops, m => runWriter cmp ops (sqfs_meta_writer_flush cmp m)
  | .append r :: ops, m =>
    let res := runWriter cmp ops (sqfs_meta_writer_append cmp m r)
    (⟨m.blockStart, m.pending.length, r⟩ :: res.1, res.2)

/-- All bytes appended by a sequence of operations, in order. -/
def appendedBytes : List WOp → List Nat
  | [] => []
  | .flush :: ops => appendedBytes ops
  | .append r :: ops => r ++ appendedBytes ops

/-- The byte stream on disk after running the operations and flushing
the unfinished block ("written out"). -/
def finalOut (cmp : List Nat → Option (List Nat)) (ops : List WOp)
    (m : MetaWriter) : List Nat :=
  (sqfs_meta_writer_flush cmp (runWriter cmp ops m).2).out

/-- The concatenation of a list of encoded blocks. -/
def encodeChain (cmp : List Nat → Option (List Nat)) : List (List Nat) → List Nat
  | [] => []
  | p :: ps => encodeBlock cmp p ++ encodeChain cmp ps

/-!
## Directory records and the readdir state machine

`sqfs_readdir_state_t` and `sqfs_readdir_state_reset` are taken from
meta_reader.h (the reset is an inline function in the header, i.e. real
source); the record layouts and `sqfs_meta_reader_readdir` itself are
modelled from the specification (§4.1, §6).
-/

/-- Decode a 16-bit little-endian word. -/
def decode_u16 (bs : List Nat) : Nat :=
  match bs with
  | a :: b :: _ => a + 256 * b
  | _ => 0

/-- Decode a 32-bit little-endian word. -/
def decode_u32 (bs : List Nat) : Nat :=
  match bs with
  | a :: b :: c :: d :: _ => a + 256 * (b + 256 * (c + 256 * d))
  | _ => 0

/-- Encode a 16-bit little-endian word. -/
def enc_u16 (n : Nat) : List Nat := [n % 256, n / 256 % 256]

/-- Encode a 32-bit little-endian word. -/
def enc_u32 (n : Nat) : List Nat :=
  [n % 256, n / 256 % 256, n / 65536 % 256, n / 16777216 % 256]

/-- Modelled from the spec: a directory header (`sqfs_dir_header_t`) —
an entry count, the back-reference block of the entries' inodes, and the
inode-number base shared by the entries. -/
structure DirHeader where
  count : Nat
  startBlock : Nat
  inodeNumber : Nat
deriving DecidableEq, Repr

/-- Modelled from the spec: a directory entry (`sqfs_dir_entry_t`) — an
offset into the owning inode's meta block, an inode-number delta from
the header's base, a type tag, and the name bytes. -/
structure DirEnt where
  offset : Nat
  inodeDiff : Nat
  typ : Nat
  name : List Nat
deriving DecidableEq, Repr

/-- On-disk directory header: three 32-bit little-endian words
(count, start block, inode-number base); 12 bytes. -/
def encodeDirHeader (h : DirHeader) : List Nat :=
  enc_u32 h.count ++ enc_u32 h.startBlock ++ enc_u32 h.inodeNumber

/-- On-disk directory entry: four 16-bit little-endian words (offset,
inode delta, type, name length stored minus one) followed by the name
bytes. -/
def encodeDirEnt (e : DirEnt) : List Nat :=
  enc_u16 e.offset ++ enc_u16 e.inodeDiff ++ enc_u16 e.typ
    ++ enc_u16 (e.name.length - 1) ++ e.name

/-- `sqfs_meta_reader_read_dir_header`: read and decode a directory
header (12 bytes) through the meta reader. -/
def sqfs_meta_reader_read_dir_header (decomp : List Nat → Option (List Nat))
    (m : MetaReader) : Except RdErr (DirHeader × MetaReader) :=
  match sqfs_meta_reader_read decomp m 12 with
  | .error e => .error e
  | .ok (bs, m') =>
    .ok (⟨decode_u32 (bs.take 4), decode_u32 ((bs.drop 4).take 4),
          decode_u32 (bs.drop 8)⟩, m')

/-- `sqfs_meta_reader_read_dir_ent`: read and decode a directory entry
(8 fixed bytes, then the name) through the meta reader. -/
def sqfs_meta_reader_read_dir_ent (decomp : List Nat → Option (List Nat))
    (m : MetaReader) : Except RdErr (DirEnt × MetaReader) :=
  match sqfs_meta_reader_read decomp m 8 with
  | .error e => .error e
  | .ok (bs, m') =>
    match sqfs_meta_reader_read decomp m' (decode_u16 (bs.drop 6) + 1) with
    | .error e => .error e
    | .ok (nm, m'') =>
      .ok (⟨decode_u16 (bs.take 2), decode_u16 ((bs.drop 2).take 2),
            decode_u16 ((bs.drop 4).take 2), nm⟩, m'')

/-- `sqfs_readdir_state_t` (meta_reader.h lines 56-67): the initial and
current (block, offset, size) positions, the entries left under the
current header, and the current header's inode-number base and inode
block reference. -/
structure sqfs_readdir_state_t where
  initBlock : Nat
  initOffset : Nat
  initSize : Nat
  curBlock : Nat
  curOffset : Nat
  curSize : Nat
  entries : Nat
  inum_base : Nat
  inode_block : Nat
deriving DecidableEq, Repr

/-- `sqfs_readdir_state_reset` (meta_reader.h lines 76-80): rewind the
state to its starting location — `current := init`, `entries := 0`. -/
def sqfs_readdir_state_reset (s : sqfs_readdir_state_t) : sqfs_readdir_state_t :=
  { s with curBlock := s.initBlock, curOffset := s.initOffset,
           curSize := s.initSize, entries := 0 }

/-- The outcome of one `readdir` call: an entry with its decoded inode
number (`base + delta`) and inode reference (`(inode_block, offset)`),
or the distinguished positive end-of-directory signal. -/
inductive ReaddirOut where
  | entry (ent : DirEnt) (inum : Nat) (iref : Nat × Nat) : ReaddirOut
  | endOfDir : ReaddirOut
deriving DecidableEq, Repr

/-- Read one entry and update the state: decrement `entries`, account
the entry's encoded size, and write back the reader position as the new
current position. -/
def readdirEntryStep (decomp : List Nat → Option (List Nat)) (m : MetaReader)
    (s : sqfs_readdir_state_t) :
    Except RdErr (ReaddirOut × MetaReader × sqfs_readdir_state_t) :=
  match sqfs_meta_reader_read_dir_ent decomp m with
  | .error e => .error e
  | .ok (ent, m') =>
    .ok (.entry ent (s.inum_base + ent.inodeDiff) (s.inode_block, ent.offset), m',
      { s with entries := s.entries - 1,
               curSize := s.curSize - (8 + ent.name.length),
               curBlock := (sqfs_meta_reader_get_position m').1,
               curOffset := (sqfs_meta_reader_get_position m').2 })

/-- Modelled from the spec: `sqfs_meta_reader_readdir` (implementation
not among the visible sources) — seek to the state's current position;
when no entries remain under the current header, either signal end of
directory (if the directory's remaining size is exhausted — a positive
outcome, not an error) or read the next header (accounting its size and
adopting its inode-number base and block reference); then read one
entry. -/
def sqfs_meta_reader_readdir (decomp : List Nat → Option (List Nat))
    (m : MetaReader) (s : sqfs_readdir_state_t) :
    Except RdErr (ReaddirOut × MetaReader × sqfs_readdir_state_t) :=
  match sqfs_meta_reader_seek decomp m s.curBlock s.curOffset with
  | .error e => .error e
  | .ok m0 =>
    if s.entries = 0 then
      if s.curSize = 0 then .ok (.endOfDir, m0, s)
      else
        match sqfs_meta_reader_read_dir_header decomp m0 with
        | .error e => .error e
        | .ok (hdr, m1) =>
          readdirEntryStep decomp m1
            { s with entries := hdr.count,
                     inum_base := hdr.inodeNumber,
                     inode_block := hdr.startBlock,
                     curSize := s.curSize - 12 }
    else
      readdirEntryStep decomp m0 s

/-- Run `readdir` `n` times, collecting the outcomes (stopping early on
an error) and returning the final reader and state. -/
def readdirN (decomp : List Nat → Option (List Nat)) :
    MetaReader → sqfs_readdir_state_t → Nat →
    List (Except RdErr ReaddirOut) × MetaReader × sqfs_readdir_state_t
  | m, s, 0 => ([], m, s)
  | m, s, n + 1 =>
    match sqfs_meta_reader_readdir decomp m s with
    | .error e => ([.error e], m, s)
    | .ok (out, m', s') =>
      let res := readdirN decomp m' s' n
      (.ok out :: res.1, res.2)

/-! ### The concrete C6 scenario: two headers with 3 + 2 entries -/

/-- Header H1: 3 entries, inode block 1000, inode-number base 500. -/
def dirH1 : DirHeader := ⟨3, 1000, 500⟩

/-- Header H2: 2 entries, inode block 2000, inode-number base 600. -/
def dirH2 : DirHeader := ⟨2, 2000, 600⟩

/-- The five entries, in stored order. -/
def dirE1 : DirEnt := ⟨10, 1, 1, [97]⟩
def dirE2 : DirEnt := ⟨20, 2, 1, [98]⟩
def dirE3 : DirEnt := ⟨30, 3, 1, [99]⟩
def dirE4 : DirEnt := ⟨40, 4, 1, [100]⟩
def dirE5 : DirEnt := ⟨50, 5, 1, [101]⟩

/-- The directory's stored records: H1, its 3 entries, H2, its 2
entries. -/
def dirPayload : List Nat :=
  encodeDirHeader dirH1 ++ encodeDirEnt dirE1 ++ encodeDirEnt dirE2
    ++ encodeDirEnt dirE3
    ++ encodeDirHeader dirH2 ++ encodeDirEnt dirE4 ++ encodeDirEnt dirE5

/-- The meta-data block stream holding the directory (one uncompressed
meta block). -/
def dirImg : List Nat := encodeChain cmpNone [dirPayload]

/-- The initialized readdir state: current = init = (block 0, offset 0),
total uncompressed directory size. -/
def dirState0 : sqfs_readdir_state_t :=
  ⟨0, 0, dirPayload.length, 0, 0, dirPayload.length, 0, 0, 0⟩

/-- A reader over the directory's meta-data block stream. -/
def dirReader : MetaReader := sqfs_meta_reader_create dirImg 0 (dirImg.length + 1)

/-- The abstraction relation between a writer state and the list of
payloads of the blocks it has emitted: the output is their encoding, the
block start position is the output length, the pending block is below
capacity, and every emitted payload is nonempty and within capacity. -/
def WView (cmp : List Nat → Option (List Nat)) (m : MetaWriter)
    (blks : List (List Nat)) : Prop :=
  m.out = encodeChain cmp blks
    ∧ m.blockStart = m.out.length
    ∧ m.pending.length < capacity
    ∧ ∀ p ∈ blks, p ≠ [] ∧ p.length ≤ capacity

/-! ## Theorems -/

theorem wsub64_eq_sub {a b : Nat} (hba : b ≤ a) (ha : a < U64) : wsub64 a b = a - b := by
  have h64 : U64 = 18446744073709551616 := by norm_num [U64]
  simp only [wsub64, h64] at *
  omega

/-- Claim C2: with sparse output permitted, the dump loop handles a
sparse-tagged entry by taking `min(remaining, block_size)` as the block's
logical length, decrementing the remaining count by exactly that amount,
and emitting a hole event — which advances the sink position by that many
bytes and writes nothing. -/
theorem claim_C2_sparse_entry (env : DumpEnv) (blockSize : Nat)
    (rest : List BSizeEntry) (i filesz : Nat) (h : env.lseekOk i = true) :
    (dumpBlocks env true blockSize (.sparse :: rest) i filesz).1
        = .hole (min filesz blockSize)
            :: (dumpBlocks env true blockSize rest (i + 1) (filesz - min filesz blockSize)).1
      ∧ (dumpBlocks env true blockSize (.sparse :: rest) i filesz).2
        = (dumpBlocks env true blockSize rest (i + 1) (filesz - min filesz blockSize)).2
      ∧ ∀ c pos, applyEv (c, pos) (.hole (min filesz blockSize))
          = (c, pos + min filesz blockSize) := by
  by_cases hlt : filesz < blockSize
  · have hm : min filesz blockSize = filesz := Nat.min_eq_left hlt.le
    simp [dumpBlocks, BSizeEntry.isSparse, h, hlt, hm, applyEv]
  · have hm : min filesz blockSize = blockSize := Nat.min_eq_right (Nat.le_of_not_lt hlt)
    simp [dumpBlocks, BSizeEntry.isSparse, h, hlt, hm, applyEv]

/-- Witness for C2 at a concrete input. -/
theorem claim_C2_sparse_entry_witness :
    envAll.lseekOk 0 = true ∧
      ((dumpBlocks envAll true 4 [.sparse] 0 10).1
          = .hole (min 10 4) :: (dumpBlocks envAll true 4 [] 1 (10 - min 10 4)).1
        ∧ (dumpBlocks envAll true 4 [.sparse] 0 10).2
          = (dumpBlocks envAll true 4 [] 1 (10 - min 10 4)).2
        ∧ ∀ c pos, applyEv (c, pos) (.hole (min 10 4)) = (c, pos + min 10 4)) :=
  ⟨rfl, claim_C2_sparse_entry envAll 4 [] 0 10 rfl⟩

theorem dumpBlocks_count_bal (env : DumpEnv) (as : Bool) (bs : Nat) (id : BlkId) :
    ∀ (entries : List BSizeEntry) (i fsz : Nat),
      List.count (.freed id) (dumpBlocks env as bs entries i fsz).1
        = List.count (.fetched id) (dumpBlocks env as bs entries i fsz).1 := by
  intro entries
  induction entries with
  | nil => intro i fsz; rfl
  | cons e rest ih =>
    intro i fsz
    simp only [dumpBlocks]
    by_cases hsp : (e.isSparse && as) = true
    · rw [if_pos hsp]
      by_cases hls : env.lseekOk i = true
      · simp [hls, List.count_cons, ih]
      · simp [hls]
    · rw [if_neg hsp]
      rcases hgb : env.getBlock i with _ | blk

      · simp
      · by_cases hw : env.writeOk i = true
        · simp [hw, List.count_cons, ih]
        · simp [hw, List.count_cons]

/-- Claim C9: on every exit path of `sqfs_data_reader_dump`, every block
successfully returned by the block-fetch or fragment-fetch capability is
released exactly once: in the event trace of any run, each block identity
is freed exactly as many times as it was fetched. -/
theorem claim_C9_blocks_released (env : DumpEnv) (inode : InodeFile)
    (blockSize : Nat) (allowSparse : Bool) (id : BlkId) :
    List.count (.freed id) (sqfs_data_reader_dump env inode blockSize allowSparse).1
      = List.count (.fetched id) (sqfs_data_reader_dump env inode blockSize allowSparse).1 := by
  simp only [sqfs_data_reader_dump]
  by_cases hts : (allowSparse && !env.truncOk) = true
  · simp [hts]
  · rw [if_neg hts]
    have hbal := dumpBlocks_count_bal env allowSparse blockSize id inode.blockSizes 0
      (inode.fileSize % U64)
    rcases h2 : (dumpBlocks env allowSparse blockSize inode.blockSizes 0 (inode.fileSize % U64)).2
      with e | rem
    · simp only [h2]
      cases allowSparse <;> simp [List.count_append, hbal]
    · simp only [h2]
      by_cases hrem : 0 < rem
      · rw [if_pos hrem]
        rcases hf : env.getFragment with _ | blk
        · cases allowSparse <;> simp [List.count_append, hbal]
        · by_cases hwf : env.writeFragOk = true <;>
            [skip; skip] <;>
            simp [hwf, List.count_append, List.count_cons, hbal] <;>
            cases allowSparse <;> simp [List.count_append, hbal]
      · rw [if_neg hrem]
        cases allowSparse <;> simp [List.count_append, hbal]

theorem dumpBlocks_no_frag_fetch (env : DumpEnv) (as : Bool) (bs : Nat) :
    ∀ (entries : List BSizeEntry) (i fsz : Nat),
      List.count (DumpEv.fetched .frag) (dumpBlocks env as bs entries i fsz).1 = 0 := by
  intro entries
  induction entries with
  | nil => intro i fsz; rfl
  | cons e rest ih =>
    intro i fsz
    simp only [dumpBlocks]
    by_cases hsp : (e.isSparse && as) = true
    · rw [if_pos hsp]
      by_cases hls : env.lseekOk i = true <;> simp [hls, List.count_cons, ih]
    · rw [if_neg hsp]
      rcases hgb : env.getBlock i with _ | blk
      · simp
      · by_cases hw : env.writeOk i = true <;> simp [hw, List.count_cons, ih]

theorem dumpBlocks_fits (env : DumpEnv) (as : Bool) (bs : Nat) :
    ∀ (entries : List BSizeEntry) (i fsz : Nat), fsz < U64 →
      FitsRun env as bs entries i fsz →
      (dumpBlocks env as bs entries i fsz).2 = .ok (remAfter env as bs entries i fsz)
        ∧ remAfter env as bs entries i fsz ≤ fsz := by
  intro entries
  induction entries with
  | nil => intro i fsz _ _; exact ⟨rfl, le_refl _⟩
  | cons e rest ih =>
    intro i fsz hU hfit
    simp only [dumpBlocks, FitsRun, remAfter] at *
    by_cases hsp : (e.isSparse && as) = true
    · simp only [if_pos hsp] at hfit ⊢
      obtain ⟨hls, hfit'⟩ := hfit
      have hmin : (if fsz < bs then (0 : Nat) else fsz - bs) = fsz - min fsz bs := by
        rcases Nat.lt_or_ge fsz bs with h | h
        · rw [if_pos h, Nat.min_eq_left h.le, Nat.sub_self]
        · rw [if_neg (Nat.not_lt.mpr h), Nat.min_eq_right h]
      have h' := ih (i + 1) (fsz - min fsz bs)
        (lt_of_le_of_lt (Nat.sub_le _ _) hU) hfit'
      simp only [hls, if_true, hmin]
      exact ⟨h'.1, le_trans h'.2 (Nat.sub_le _ _)⟩
    · simp only [if_neg hsp] at hfit ⊢
      obtain ⟨blk, hgb, hw, hle, hfit'⟩ := hfit
      rw [hgb]
      have h' := ih (i + 1) (fsz - blk.data.length)
        (lt_of_le_of_lt (Nat.sub_le _ _) hU) hfit'
      simp only [hw, if_true, wsub64_eq_sub hle hU]
      exact ⟨h'.1, le_trans h'.2 (Nat.sub_le _ _)⟩

/-- Claim C10: the remaining-bytes counter is a `uint64_t` decremented by
wrapping subtraction; under the precondition that each fetched block's
size is at most the remaining count when it is written (and all fetches
and writes succeed), it never underflows — the loop ends in the exact
unaccounted tail value, which never exceeds `file_size` — and the
fragment step runs if and only if that tail is nonzero. -/
theorem claim_C10_remaining_counter (env : DumpEnv) (inode : InodeFile)
    (blockSize : Nat) (allowSparse : Bool) (fb : SqfsBlock)
    (hU : inode.fileSize < U64)
    (hfit : FitsRun env allowSparse blockSize inode.blockSizes 0 inode.fileSize)
    (htr : env.truncOk = true)
    (hfrag : env.getFragment = some fb)
    (hwf : env.writeFragOk = true) :
    (dumpBlocks env allowSparse blockSize inode.blockSizes 0 inode.fileSize).2
        = .ok (remAfter env allowSparse blockSize inode.blockSizes 0 inode.fileSize)
      ∧ remAfter env allowSparse blockSize inode.blockSizes 0 inode.fileSize
          ≤ inode.fileSize
      ∧ List.count (DumpEv.fetched .frag)
            (sqfs_data_reader_dump env inode blockSize allowSparse).1
          = (if 0 < remAfter env allowSparse blockSize inode.blockSizes 0 inode.fileSize
             then 1 else 0) := by
  have hmod : inode.fileSize % U64 = inode.fileSize := Nat.mod_eq_of_lt hU
  have hmain := dumpBlocks_fits env allowSparse blockSize inode.blockSizes 0
    inode.fileSize hU hfit
  refine ⟨hmain.1, hmain.2, ?_⟩
  have hnf := dumpBlocks_no_frag_fetch env allowSparse blockSize inode.blockSizes 0
    inode.fileSize
  simp only [sqfs_data_reader_dump, hmod]
  have hts : (allowSparse && !env.truncOk) = false := by simp [htr]
  rw [hts]
  simp only [Bool.false_eq_true, if_false, hmain.1, hfrag]
  by_cases hrem : 0 < remAfter env allowSparse blockSize inode.blockSizes 0 inode.fileSize
  · rw [if_pos hrem, if_pos hrem]
    simp only [hwf, if_true]
    cases allowSparse <;> simp [List.count_append, List.count_cons, hnf]
  · rw [if_neg hrem, if_neg hrem]
    cases allowSparse <;> simp [List.count_append, hnf]

/-- Witness for C10 at a concrete input. -/
theorem claim_C10_remaining_counter_witness :
    (10 : Nat) < U64
      ∧ FitsRun envAll true 4 [.sparse, .stored 3] 0 10
      ∧ envAll.truncOk = true
      ∧ envAll.getFragment = some ⟨[7]⟩
      ∧ envAll.writeFragOk = true
      ∧ ((dumpBlocks envAll true 4 [.sparse, .stored 3] 0 10).2
            = .ok (remAfter envAll true 4 [.sparse, .stored 3] 0 10)
          ∧ remAfter envAll true 4 [.sparse, .stored 3] 0 10 ≤ 10
          ∧ List.count (DumpEv.fetched .frag)
                (sqfs_data_reader_dump envAll ⟨10, [.sparse, .stored 3]⟩ 4 true).1
              = (if 0 < remAfter envAll true 4 [.sparse, .stored 3] 0 10 then 1 else 0)) := by
  have hU : (10 : Nat) < U64 := by norm_num [U64]
  have hfit : FitsRun envAll true 4 [.sparse, .stored 3] 0 10 := by
    simp only [FitsRun, BSizeEntry.isSparse]
    refine ⟨rfl, ⟨⟨[1, 2, 3]⟩, rfl, rfl, by norm_num, trivial⟩⟩
  exact ⟨hU, hfit, rfl, rfl, rfl,
    claim_C10_remaining_counter envAll ⟨10, [.sparse, .stored 3]⟩ 4 true ⟨[7]⟩
      hU hfit rfl rfl rfl⟩

/-- Claim C3: after the block loop ends with `rem` bytes remaining, the
fragment-fetch capability is invoked exactly once if `rem > 0` and never
if `rem = 0`; when invoked, the fetched fragment block's bytes are
written verbatim and (given the capability's contract that the fragment
accounts for exactly the remaining bytes) exactly `rem` bytes are
written, never more. -/
theorem claim_C3_fragment_once (env : DumpEnv) (inode : InodeFile)
    (blockSize : Nat) (allowSparse : Bool) (fb : SqfsBlock)
    (tr : List DumpEv) (rem : Nat)
    (hfrag : env.getFragment = some fb)
    (hwf : env.writeFragOk = true)
    (htr : env.truncOk = true)
    (hrun : dumpBlocks env allowSparse blockSize inode.blockSizes 0 (inode.fileSize % U64)
        = (tr, .ok rem))
    (hsz : fb.data.length = rem) :
    List.count (DumpEv.fetched .frag) (sqfs_data_reader_dump env inode blockSize allowSparse).1
        = (if 0 < rem then 1 else 0)
      ∧ (0 < rem →
          sqfs_data_reader_dump env inode blockSize allowSparse
            = ((if allowSparse then [DumpEv.truncate (inode.fileSize % U64)] else []) ++ tr
                ++ [.fetched .frag, .write fb.data, .freed .frag], .ok ())
          ∧ fb.data.length = rem)
      ∧ (rem = 0 →
          sqfs_data_reader_dump env inode blockSize allowSparse
            = ((if allowSparse then [DumpEv.truncate (inode.fileSize % U64)] else []) ++ tr,
                .ok ())) := by
  have hnf : List.count (DumpEv.fetched .frag) tr = 0 := by
    have := dumpBlocks_no_frag_fetch env allowSparse blockSize inode.blockSizes 0
      (inode.fileSize % U64)
    rwa [hrun] at this
  have hts : (allowSparse && !env.truncOk) = false := by simp [htr]
  refine ⟨?_, fun hrem => ⟨?_, hsz⟩, fun hrem0 => ?_⟩
  · simp only [sqfs_data_reader_dump, hts, Bool.false_eq_true, if_false, hrun, hfrag]
    by_cases hrem : 0 < rem
    · rw [if_pos hrem, if_pos hrem]
      simp only [hwf, if_true]
      cases allowSparse <;> simp [List.count_append, List.count_cons, hnf]
    · rw [if_neg hrem, if_neg hrem]
      cases allowSparse <;> simp [List.count_append, hnf]
  · simp only [sqfs_data_reader_dump, hts, Bool.false_eq_true, if_false, hrun, hfrag,
      if_pos hrem, hwf, if_true]
  · have hnr : ¬ 0 < rem := by omega
    simp only [sqfs_data_reader_dump, hts, Bool.false_eq_true, if_false, hrun, if_neg hnr]

/-- Witness for C3 at a concrete input: one stored block of 3 bytes,
`file_size = 4`, so one fragment byte remains. -/
theorem claim_C3_fragment_once_witness :
    envAll.getFragment = some ⟨[7]⟩
      ∧ envAll.writeFragOk = true
      ∧ envAll.truncOk = true
      ∧ dumpBlocks envAll false 4 [.stored 3] 0 (4 % U64)
          = ([.fetched (.blk 0), .write [1, 2, 3], .freed (.blk 0)], .ok 1)
      ∧ (SqfsBlock.mk [7]).data.length = 1
      ∧ (List.count (DumpEv.fetched .frag)
            (sqfs_data_reader_dump envAll ⟨4, [.stored 3]⟩ 4 false).1
          = (if 0 < 1 then 1 else 0)
        ∧ (0 < 1 →
            sqfs_data_reader_dump envAll ⟨4, [.stored 3]⟩ 4 false
              = ((if false then [DumpEv.truncate (4 % U64)] else [])
                  ++ [.fetched (.blk 0), .write [1, 2, 3], .freed (.blk 0)]
                  ++ [.fetched .frag, .write [7], .freed .frag], .ok ())
            ∧ (SqfsBlock.mk [7]).data.length = 1)
        ∧ ((1 : Nat) = 0 →
            sqfs_data_reader_dump envAll ⟨4, [.stored 3]⟩ 4 false
              = ((if false then [DumpEv.truncate (4 % U64)] else [])
                  ++ [.fetched (.blk 0), .write [1, 2, 3], .freed (.blk 0)], .ok ()))) := by
  have hrun : dumpBlocks envAll false 4 [.stored 3] 0 (4 % U64)
      = ([.fetched (.blk 0), .write [1, 2, 3], .freed (.blk 0)], .ok 1) := by
    have h4 : 4 % U64 = 4 := by norm_num [U64]
    rw [h4]
    rfl
  exact ⟨rfl, rfl, rfl, hrun, rfl,
    claim_C3_fragment_once envAll ⟨4, [.stored 3]⟩ 4 false ⟨[7]⟩
      [.fetched (.blk 0), .write [1, 2, 3], .freed (.blk 0)] 1 rfl rfl rfl hrun rfl⟩

/-- Claim C4: any block-fetch, fragment-fetch or sink-write failure —
at either write site, a data block or the fragment — aborts
`sqfs_data_reader_dump` immediately with a failure result, keeping
whatever partial output was produced; and when sparse handling is
requested but pre-sizing the sink fails, the distinct "cannot create
sparse output" condition is reported with an empty trace, i.e. before
any block of the inode has been processed. -/
theorem claim_C4_failures_abort (env env₅ : DumpEnv)
    (e₂ e₃ : BSizeEntry) (i₂ i₃ : Nat) (blk₃ fb₅ : SqfsBlock)
    (inode₄ inode₅ : InodeFile) (bs₄ bs₅ : Nat)
    (tr₄ tr₅ : List DumpEv) (rem₄ rem₅ : Nat)
    (htr : env.truncOk = false)
    (h₂s : e₂.isSparse = false) (h₂ : env.getBlock i₂ = none)
    (h₃s : e₃.isSparse = false) (h₃ : env.getBlock i₃ = some blk₃)
    (h₃w : env.writeOk i₃ = false)
    (h₄f : env.getFragment = none)
    (h₄r : dumpBlocks env false bs₄ inode₄.blockSizes 0 (inode₄.fileSize % U64)
        = (tr₄, .ok rem₄))
    (h₄p : 0 < rem₄)
    (h₅f : env₅.getFragment = some fb₅)
    (h₅w : env₅.writeFragOk = false)
    (h₅r : dumpBlocks env₅ false bs₅ inode₅.blockSizes 0 (inode₅.fileSize % U64)
        = (tr₅, .ok rem₅))
    (h₅p : 0 < rem₅) :
    (∀ inode bs, sqfs_data_reader_dump env inode bs true = ([], .error .sparseFail))
      ∧ (∀ as bs rest fsz, dumpBlocks env as bs (e₂ :: rest) i₂ fsz = ([], .error .blockErr))
      ∧ (∀ as bs rest fsz, dumpBlocks env as bs (e₃ :: rest) i₃ fsz
            = ([.fetched (.blk i₃), .freed (.blk i₃)], .error .writeErr))
      ∧ sqfs_data_reader_dump env inode₄ bs₄ false = (tr₄, .error .fragErr)
      ∧ sqfs_data_reader_dump env₅ inode₅ bs₅ false
          = (tr₅ ++ [.fetched .frag, .freed .frag], .error .writeErr) := by
  refine ⟨?_, ?_, ?_, ?_, ?_⟩
  · intro inode bs
    simp [sqfs_data_reader_dump, htr]
  · intro as bs rest fsz
    simp [dumpBlocks, h₂s, h₂]
  · intro as bs rest fsz
    simp [dumpBlocks, h₃s, h₃, h₃w]
  · simp [sqfs_data_reader_dump, h₄r, h₄p, h₄f]
  · simp [sqfs_data_reader_dump, h₅r, h₅p, h₅f, h₅w]

/-- Witness for C4 at concrete inputs (empty block lists for the two
fragment cases, so the loop succeeds with 5 bytes remaining). -/
theorem claim_C4_failures_abort_witness :
    envFail.truncOk = false
      ∧ (BSizeEntry.stored 2).isSparse = false
      ∧ envFail.getBlock 0 = none
      ∧ (BSizeEntry.stored 2).isSparse = false
      ∧ envFail.getBlock 1 = some ⟨[9]⟩
      ∧ envFail.writeOk 1 = false
      ∧ envFail.getFragment = none
      ∧ dumpBlocks envFail false 4 (InodeFile.mk 5 []).blockSizes 0 ((5 : Nat) % U64)
          = ([], .ok (5 % U64))
      ∧ 0 < (5 : Nat) % U64
      ∧ envFragWriteFail.getFragment = some ⟨[7]⟩
      ∧ envFragWriteFail.writeFragOk = false
      ∧ dumpBlocks envFragWriteFail false 4 (InodeFile.mk 5 []).blockSizes 0
          ((5 : Nat) % U64) = ([], .ok (5 % U64))
      ∧ 0 < (5 : Nat) % U64
      ∧ ((∀ inode bs, sqfs_data_reader_dump envFail inode bs true = ([], .error .sparseFail))
        ∧ (∀ as bs rest fsz, dumpBlocks envFail as bs (.stored 2 :: rest) 0 fsz
              = ([], .error .blockErr))
        ∧ (∀ as bs rest fsz, dumpBlocks envFail as bs (.stored 2 :: rest) 1 fsz
              = ([.fetched (.blk 1), .freed (.blk 1)], .error .writeErr))
        ∧ sqfs_data_reader_dump envFail ⟨5, []⟩ 4 false = ([], .error .fragErr)
        ∧ sqfs_data_reader_dump envFragWriteFail ⟨5, []⟩ 4 false
            = ([] ++ [.fetched .frag, .freed .frag], .error .writeErr)) := by
  have h5 : (5 : Nat) % U64 = 5 := by norm_num [U64]
  have h5p : 0 < (5 : Nat) % U64 := by rw [h5]; norm_num
  refine ⟨rfl, rfl, rfl, rfl, rfl, rfl, rfl, rfl, h5p, rfl, rfl, rfl, h5p, ?_⟩
  exact claim_C4_failures_abort envFail envFragWriteFail (.stored 2) (.stored 2) 0 1
    ⟨[9]⟩ ⟨[7]⟩ ⟨5, []⟩ ⟨5, []⟩ 4 4 [] [] (5 % U64) (5 % U64)
    rfl rfl rfl rfl rfl rfl rfl rfl h5p rfl rfl rfl h5p

theorem ite_min (a b : Nat) : (if a < b then a else b) = min a b := by
  rcases Nat.lt_or_ge a b with h | h
  · rw [if_pos h, Nat.min_eq_left h.le]
  · rw [if_neg (Nat.not_lt.mpr h), Nat.min_eq_right h]

theorem ite_sub_min (a b : Nat) : (if a < b then (0 : Nat) else a - b) = a - min a b := by
  rcases Nat.lt_or_ge a b with h | h
  · rw [if_pos h, Nat.min_eq_left h.le, Nat.sub_self]
  · rw [if_neg (Nat.not_lt.mpr h), Nat.min_eq_right h]

theorem truncTo_nil (n : Nat) : truncTo [] n = zeros n := by
  cases n <;> simp [truncTo, zeros]

theorem applyEvents_append (l₁ l₂ : List DumpEv) (st : List Nat × Nat) :
    applyEvents (l₁ ++ l₂) st = applyEvents l₂ (applyEvents l₁ st) :=
  List.foldl_append ..

theorem applyEv_write_append (c w : List Nat) :
    applyEv (c, c.length) (.write w) = (c ++ w, (c ++ w).length) := by
  simp [applyEv, writeAt, List.drop_eq_nil_of_le]

theorem applyEv_write_zeros (d : List Nat) (m : Nat) (w : List Nat) :
    applyEv (d ++ zeros m, d.length) (.write w)
      = (d ++ w ++ zeros (m - w.length), d.length + w.length) := by
  simp only [applyEv, writeAt, zeros]
  have hle : d.length ≤ (d ++ List.replicate m (0 : Nat)).length := by simp
  rw [if_pos hle, List.take_left, List.drop_append, List.drop_replicate]

theorem dumpBlocks_ns_run (env : DumpEnv) (bs : Nat) :
    ∀ (entries : List BSizeEntry) (i rem : Nat), rem < U64 →
      EnvOk env bs entries i rem →
      dumpBlocks env false bs entries i rem
        = (nsTraceSpec env bs entries i rem, .ok (looseEnd bs entries rem)) := by
  intro entries
  induction entries with
  | nil => intro i rem _ _; rfl
  | cons e rest ih =>
    intro i rem hU henv
    simp only [EnvOk] at henv
    obtain ⟨⟨blk, hgb, hlen, hspz⟩, hw, hls, henv'⟩ := henv
    simp only [dumpBlocks, nsTraceSpec, looseEnd, Bool.and_false, Bool.false_eq_true,
      if_false]
    rw [hgb]
    have hws : wsub64 rem (min rem bs) = rem - min rem bs :=
      wsub64_eq_sub (Nat.min_le_left rem bs) hU
    have hrec := ih (i + 1) (rem - min rem bs)
      (lt_of_le_of_lt (Nat.sub_le _ _) hU) henv'
    simp only [hw, if_true, hlen, hws, hrec]
    by_cases hes : e.isSparse = true
    · simp [hes, hspz hes]
    · simp [hes, blockDataAt, hgb]

theorem dumpBlocks_s_run (env : DumpEnv) (bs : Nat) :
    ∀ (entries : List BSizeEntry) (i rem : Nat), rem < U64 →
      EnvOk env bs entries i rem →
      dumpBlocks env true bs entries i rem
        = (sTraceSpec env bs entries i rem, .ok (looseEnd bs entries rem)) := by
  intro entries
  induction entries with
  | nil => intro i rem _ _; rfl
  | cons e rest ih =>
    intro i rem hU henv
    simp only [EnvOk] at henv
    obtain ⟨⟨blk, hgb, hlen, hspz⟩, hw, hls, henv'⟩ := henv
    have hrec := ih (i + 1) (rem - min rem bs)
      (lt_of_le_of_lt (Nat.sub_le _ _) hU) henv'
    simp only [dumpBlocks, sTraceSpec, looseEnd, Bool.and_true]
    by_cases hes : e.isSparse = true
    · simp only [hes, if_true, hls, ite_min, ite_sub_min, hrec]
    · simp only [hes, Bool.false_eq_true, if_false]
      rw [hgb]
      have hws : wsub64 rem (min rem bs) = rem - min rem bs :=
        wsub64_eq_sub (Nat.min_le_left rem bs) hU
      simp only [hw, if_true, hlen, hws, hrec]
      simp [blockDataAt, hgb]

theorem nsTraceSpec_no_hole (env : DumpEnv) (bs : Nat) :
    ∀ (entries : List BSizeEntry) (i rem n : Nat),
      DumpEv.hole n ∉ nsTraceSpec env bs entries i rem := by
  intro entries
  induction entries with
  | nil => intro i rem n; simp [nsTraceSpec]
  | cons e rest ih => intro i rem n; simp [nsTraceSpec, ih]

theorem nsTraceSpec_content (env : DumpEnv) (bs : Nat) :
    ∀ (entries : List BSizeEntry) (i rem : Nat) (c : List Nat),
      applyEvents (nsTraceSpec env bs entries i rem) (c, c.length)
        = (c ++ loopData env bs entries i rem,
           (c ++ loopData env bs entries i rem).length) := by
  intro entries
  induction entries with
  | nil => intro i rem c; simp [nsTraceSpec, loopData, applyEvents]
  | cons e rest ih =>
    intro i rem c
    simp only [nsTraceSpec, loopData, applyEvents, List.foldl_cons]
    rw [show applyEv (c, c.length) (.fetched (.blk i)) = (c, c.length) from rfl]
    rw [applyEv_write_append]
    rw [show ∀ p : List Nat × Nat, applyEv p (.freed (.blk i)) = p from fun p => rfl]
    have := ih (i + 1) (rem - min rem bs)
      (c ++ if e.isSparse then zeros (min rem bs) else blockDataAt env i)
    simp only [applyEvents] at this
    rw [this, List.append_assoc]

theorem sTraceSpec_content (env : DumpEnv) (bs : Nat) :
    ∀ (entries : List BSizeEntry) (i rem : Nat), EnvOk env bs entries i rem →
      ∀ d : List Nat,
        applyEvents (sTraceSpec env bs entries i rem) (d ++ zeros rem, d.length)
          = (d ++ loopData env bs entries i rem ++ zeros (looseEnd bs entries rem),
             (d ++ loopData env bs entries i rem).length) := by
  intro entries
  induction entries with
  | nil => intro i rem _ d; simp [sTraceSpec, loopData, looseEnd, applyEvents]
  | cons e rest ih =>
    intro i rem henv d
    simp only [EnvOk] at henv
    obtain ⟨⟨blk, hgb, hlen, hspz⟩, hw, hls, henv'⟩ := henv
    have hkle : min rem bs ≤ rem := Nat.min_le_left rem bs
    have hsplit : zeros rem = zeros (min rem bs) ++ zeros (rem - min rem bs) := by
      rw [zeros, zeros, zeros, ← List.replicate_add, Nat.add_sub_cancel' hkle]
    by_cases hes : e.isSparse = true
    · simp only [sTraceSpec, loopData, looseEnd, hes, if_true, applyEvents,
        List.foldl_cons]
      rw [show applyEv (d ++ zeros rem, d.length) (.hole (min rem bs))
            = (d ++ zeros rem, d.length + min rem bs) from rfl]
      have hst : (d ++ zeros rem, d.length + min rem bs)
          = ((d ++ zeros (min rem bs)) ++ zeros (rem - min rem bs),
             (d ++ zeros (min rem bs)).length) := by
        rw [hsplit, ← List.append_assoc]
        simp [zeros]
      rw [hst]
      have := ih (i + 1) (rem - min rem bs) henv' (d ++ zeros (min rem bs))
      simp only [applyEvents] at this
      rw [this]
      simp [List.append_assoc]
    · simp only [sTraceSpec, loopData, looseEnd, hes, Bool.false_eq_true, if_false,
        applyEvents, List.foldl_cons]
      rw [show applyEv (d ++ zeros rem, d.length) (.fetched (.blk i))
            = (d ++ zeros rem, d.length) from rfl]
      have hwlen : (blockDataAt env i).length = min rem bs := by
        simp [blockDataAt, hgb, hlen]
      rw [applyEv_write_zeros d rem (blockDataAt env i)]
      rw [show ∀ p : List Nat × Nat, applyEv p (.freed (.blk i)) = p from fun p => rfl]
      have hst : (d ++ blockDataAt env i ++ zeros (rem - (blockDataAt env i).length),
            d.length + (blockDataAt env i).length)
          = ((d ++ blockDataAt env i) ++ zeros (rem - min rem bs),
             (d ++ blockDataAt env i).length) := by
        rw [hwlen]
        simp [hwlen]
      rw [hst]
      have := ih (i + 1) (rem - min rem bs) henv' (d ++ blockDataAt env i)
      simp only [applyEvents] at this
      rw [this]
      simp [List.append_assoc]

theorem applyEvents_frag_write (c w : List Nat) :
    applyEvents [DumpEv.fetched .frag, .write w, .freed .frag] (c, c.length)
      = (c ++ w, (c ++ w).length) := by
  simp only [applyEvents, List.foldl_cons, List.foldl_nil]
  rw [show applyEv (c, c.length) (.fetched .frag) = (c, c.length) from rfl,
      applyEv_write_append]
  rfl

theorem applyEvents_frag_write_zeros (d : List Nat) (m : Nat) (w : List Nat) :
    applyEvents [DumpEv.fetched .frag, .write w, .freed .frag] (d ++ zeros m, d.length)
      = (d ++ w ++ zeros (m - w.length), d.length + w.length) := by
  simp only [applyEvents, List.foldl_cons, List.foldl_nil]
  rw [show applyEv (d ++ zeros m, d.length) (.fetched .frag) = (d ++ zeros m, d.length)
        from rfl,
      applyEv_write_zeros]
  rfl

/-- Claim C5: with sparse output disabled, every sparse-tagged entry is
handled by an explicit zero-fill write — the trace is the fetch/write/free
trace whose write for a sparse entry is `min(remaining, block_size)` zero
bytes, and it contains no hole/seek event — and the resulting output
content is byte-identical to the run with sparse output enabled (which
uses holes over the pre-sized sink). -/
theorem claim_C5_nonsparse_zero_fill (env : DumpEnv) (inode : InodeFile)
    (blockSize : Nat) (fb : SqfsBlock)
    (hU : inode.fileSize < U64)
    (henv : EnvOk env blockSize inode.blockSizes 0 inode.fileSize)
    (htr : env.truncOk = true)
    (hfrag : env.getFragment = some fb)
    (hfb : fb.data.length = looseEnd blockSize inode.blockSizes inode.fileSize)
    (hwf : env.writeFragOk = true) :
    sqfs_data_reader_dump env inode blockSize false
        = (nsTraceSpec env blockSize inode.blockSizes 0 inode.fileSize
            ++ (if 0 < looseEnd blockSize inode.blockSizes inode.fileSize
                then [DumpEv.fetched .frag, .write fb.data, .freed .frag] else []),
           .ok ())
      ∧ (∀ n, DumpEv.hole n ∉ (sqfs_data_reader_dump env inode blockSize false).1)
      ∧ outputContent (sqfs_data_reader_dump env inode blockSize false).1
          = outputContent (sqfs_data_reader_dump env inode blockSize true).1 := by
  have hmod : inode.fileSize % U64 = inode.fileSize := Nat.mod_eq_of_lt hU
  have hns := dumpBlocks_ns_run env blockSize inode.blockSizes 0 inode.fileSize hU henv
  have hs := dumpBlocks_s_run env blockSize inode.blockSizes 0 inode.fileSize hU henv
  have hts : (true && !env.truncOk) = false := by simp [htr]
  have hnh := nsTraceSpec_no_hole env blockSize inode.blockSizes 0 inode.fileSize
  by_cases hpos : 0 < looseEnd blockSize inode.blockSizes inode.fileSize
  · have hdNS : sqfs_data_reader_dump env inode blockSize false
        = (nsTraceSpec env blockSize inode.blockSizes 0 inode.fileSize
            ++ [DumpEv.fetched .frag, .write fb.data, .freed .frag], .ok ()) := by
      simp only [sqfs_data_reader_dump, Bool.false_and, Bool.false_eq_true, if_false,
        hmod, hns, if_pos hpos, hfrag, hwf, if_true, List.nil_append]
    have hdS : sqfs_data_reader_dump env inode blockSize true
        = (DumpEv.truncate inode.fileSize
            :: (sTraceSpec env blockSize inode.blockSizes 0 inode.fileSize
                ++ [DumpEv.fetched .frag, .write fb.data, .freed .frag]), .ok ()) := by
      simp only [sqfs_data_reader_dump, hts, Bool.false_eq_true, if_false, hmod, hs,
        if_pos hpos, hfrag, hwf, if_true, if_true, List.singleton_append,
        List.cons_append, List.nil_append]
    refine ⟨by rw [if_pos hpos]; exact hdNS, ?_, ?_⟩
    · intro n
      rw [hdNS]
      simp [List.mem_append, hnh n]
    · have hcNS : outputContent
          (nsTraceSpec env blockSize inode.blockSizes 0 inode.fileSize
            ++ [DumpEv.fetched .frag, .write fb.data, .freed .frag])
          = loopData env blockSize inode.blockSizes 0 inode.fileSize ++ fb.data := by
        rw [outputContent, applyEvents_append]
        rw [show ((([] : List Nat)), (0 : Nat)) = (([] : List Nat), ([] : List Nat).length)
              from rfl]
        rw [nsTraceSpec_content, applyEvents_frag_write]
        simp
      have hcS : outputContent
          (DumpEv.truncate inode.fileSize
            :: (sTraceSpec env blockSize inode.blockSizes 0 inode.fileSize
                ++ [DumpEv.fetched .frag, .write fb.data, .freed .frag]))
          = loopData env blockSize inode.blockSizes 0 inode.fileSize ++ fb.data := by
        rw [outputContent]
        simp only [applyEvents, List.foldl_cons]
        rw [show applyEv (([] : List Nat), 0) (.truncate inode.fileSize)
              = (zeros inode.fileSize, 0) from by simp [applyEv, truncTo_nil]]
        rw [List.foldl_append]
        rw [show (zeros inode.fileSize, (0 : Nat))
              = (([] : List Nat) ++ zeros inode.fileSize, ([] : List Nat).length)
              from by simp]
        have h1 := sTraceSpec_content env blockSize inode.blockSizes 0 inode.fileSize
          henv []
        simp only [applyEvents] at h1
        rw [h1]
        simp only [List.nil_append]
        have h2 := applyEvents_frag_write_zeros
          (loopData env blockSize inode.blockSizes 0 inode.fileSize)
          (looseEnd blockSize inode.blockSizes inode.fileSize) fb.data
        simp only [applyEvents] at h2
        rw [h2, hfb, Nat.sub_self]
        simp [zeros]
      rw [hdNS, hdS]
      show outputContent
          (nsTraceSpec env blockSize inode.blockSizes 0 inode.fileSize
            ++ [DumpEv.fetched .frag, .write fb.data, .freed .frag])
          = outputContent
            (DumpEv.truncate inode.fileSize
              :: (sTraceSpec env blockSize inode.blockSizes 0 inode.fileSize
                  ++ [DumpEv.fetched .frag, .write fb.data, .freed .frag]))
      rw [hcNS, hcS]
  · have hzero : looseEnd blockSize inode.blockSizes inode.fileSize = 0 := by omega
    have hdNS : sqfs_data_reader_dump env inode blockSize false
        = (nsTraceSpec env blockSize inode.blockSizes 0 inode.fileSize, .ok ()) := by
      simp only [sqfs_data_reader_dump, Bool.false_and, Bool.false_eq_true, if_false,
        hmod, hns, if_neg hpos, List.nil_append]
    have hdS : sqfs_data_reader_dump env inode blockSize true
        = (DumpEv.truncate inode.fileSize
            :: sTraceSpec env blockSize inode.blockSizes 0 inode.fileSize, .ok ()) := by
      simp only [sqfs_data_reader_dump, hts, Bool.false_eq_true, if_false, hmod, hs,
        if_neg hpos, if_true, List.singleton_append, List.nil_append]
    refine ⟨by rw [if_neg hpos, List.append_nil]; exact hdNS, ?_, ?_⟩
    · intro n
      rw [hdNS]
      exact hnh n
    · have hcNS : outputContent
          (nsTraceSpec env blockSize inode.blockSizes 0 inode.fileSize)
          = loopData env blockSize inode.blockSizes 0 inode.fileSize := by
        rw [outputContent]
        rw [show ((([] : List Nat)), (0 : Nat)) = (([] : List Nat), ([] : List Nat).length)
              from rfl]
        rw [show applyEvents (nsTraceSpec env blockSize inode.blockSizes 0 inode.fileSize)
              (([] : List Nat), ([] : List Nat).length)
              = (([] : List Nat) ++ loopData env blockSize inode.blockSizes 0 inode.fileSize,
                 (([] : List Nat) ++ loopData env blockSize inode.blockSizes 0
                     inode.fileSize).length)
              from nsTraceSpec_content env blockSize inode.blockSizes 0 inode.fileSize []]
        simp
      have hcS : outputContent
          (DumpEv.truncate inode.fileSize
            :: sTraceSpec env blockSize inode.blockSizes 0 inode.fileSize)
          = loopData env blockSize inode.blockSizes 0 inode.fileSize := by
        rw [outputContent]
        simp only [applyEvents, List.foldl_cons]
        rw [show applyEv (([] : List Nat), 0) (.truncate inode.fileSize)
              = (zeros inode.fileSize, 0) from by simp [applyEv, truncTo_nil]]
        rw [show (zeros inode.fileSize, (0 : Nat))
              = (([] : List Nat) ++ zeros inode.fileSize, ([] : List Nat).length)
              from by simp]
        have h1 := sTraceSpec_content env blockSize inode.blockSizes 0 inode.fileSize
          henv []
        simp only [applyEvents] at h1
        rw [h1, hzero]
        simp [zeros]
      rw [hdNS, hdS]
      show outputContent
          (nsTraceSpec env blockSize inode.blockSizes 0 inode.fileSize)
          = outputContent
            (DumpEv.truncate inode.fileSize
              :: sTraceSpec env blockSize inode.blockSizes 0 inode.fileSize)
      rw [hcNS, hcS]

/-- Witness for C5 at a concrete input: `blockSize = 4`, `fileSize = 10`,
entries `[sparse, stored]`, a two-byte fragment. -/
theorem claim_C5_nonsparse_zero_fill_witness :
    (10 : Nat) < U64
      ∧ EnvOk envC5 4 [.sparse, .stored 9] 0 10
      ∧ envC5.truncOk = true
      ∧ envC5.getFragment = some ⟨[7, 8]⟩
      ∧ (SqfsBlock.mk [7, 8]).data.length = looseEnd 4 [.sparse, .stored 9] 10
      ∧ envC5.writeFragOk = true
      ∧ (sqfs_data_reader_dump envC5 ⟨10, [.sparse, .stored 9]⟩ 4 false
            = (nsTraceSpec envC5 4 [.sparse, .stored 9] 0 10
                ++ (if 0 < looseEnd 4 [.sparse, .stored 9] 10
                    then [DumpEv.fetched .frag, .write [7, 8], .freed .frag] else []),
               .ok ())
          ∧ (∀ n, DumpEv.hole n
              ∉ (sqfs_data_reader_dump envC5 ⟨10, [.sparse, .stored 9]⟩ 4 false).1)
          ∧ outputContent
                (sqfs_data_reader_dump envC5 ⟨10, [.sparse, .stored 9]⟩ 4 false).1
              = outputContent
                (sqfs_data_reader_dump envC5 ⟨10, [.sparse, .stored 9]⟩ 4 true).1) := by
  have hU : (10 : Nat) < U64 := by norm_num [U64]
  have henv : EnvOk envC5 4 [.sparse, .stored 9] 0 10 := by
    simp only [EnvOk]
    exact ⟨⟨⟨[0, 0, 0, 0]⟩, rfl, by decide, fun _ => by decide⟩, rfl, rfl,
      ⟨⟨[1, 2, 3, 4]⟩, rfl, by decide, fun h => by simp [BSizeEntry.isSparse] at h⟩,
      rfl, rfl, trivial⟩
  exact ⟨hU, henv, rfl, rfl, by decide, rfl,
    claim_C5_nonsparse_zero_fill envC5 ⟨10, [.sparse, .stored 9]⟩ 4 ⟨[7, 8]⟩
      hU henv rfl rfl (by decide) rfl⟩

theorem storedPayload_length_le (cmp : List Nat → Option (List Nat))
    (payload : List Nat) :
    (storedPayload cmp payload).length ≤ payload.length := by
  unfold storedPayload
  rcases hc : cmp payload with _ | c
  · exact le_refl _
  · by_cases hlt : c.length < payload.length <;> simp [hlt]
    exact hlt.le

/-- Claim C8: when the compressor's output is not strictly smaller than
the raw pending payload (including compressor failure), the flushed
block is stored uncompressed: the emitted bytes are the 2-byte header
followed by the raw payload, the header's uncompressed flag is set and
its size field equals the raw payload length; and — for every compressor
and writer state — a flush never emits more than payload length plus the
2-byte header. -/
theorem claim_C8_incompressible_flush (cmp : List Nat → Option (List Nat))
    (m : MetaWriter)
    (hne : m.pending ≠ [])
    (hcap : m.pending.length ≤ capacity)
    (hinc : ∀ c, cmp m.pending = some c → m.pending.length ≤ c.length) :
    (sqfs_meta_writer_flush cmp m).out
        = m.out ++ (headerWord cmp m.pending % 256 :: headerWord cmp m.pending / 256
            :: m.pending)
      ∧ storedUncompressed cmp m.pending = true
      ∧ headerWord cmp m.pending % 32768 = m.pending.length
      ∧ 32768 ≤ headerWord cmp m.pending
      ∧ ∀ (cmp' : List Nat → Option (List Nat)) (m' : MetaWriter),
          (sqfs_meta_writer_flush cmp' m').out.length
            ≤ m'.out.length + 2 + m'.pending.length := by
  have hsp : storedPayload cmp m.pending = m.pending := by
    unfold storedPayload
    rcases hc : cmp m.pending with _ | c
    · rfl
    · simp [Nat.not_lt.mpr (hinc c hc)]
  have hsu : storedUncompressed cmp m.pending = true := by
    unfold storedUncompressed
    rcases hc : cmp m.pending with _ | c
    · rfl
    · simp [Nat.not_lt.mpr (hinc c hc)]
  have hhw : headerWord cmp m.pending = m.pending.length + 32768 := by
    simp [headerWord, hsp, hsu]
  have hlt : m.pending.length < 32768 := by
    have : capacity = 8192 := rfl
    omega
  refine ⟨?_, hsu, ?_, ?_, ?_⟩
  · simp only [sqfs_meta_writer_flush, if_neg hne, encodeBlock, hsp]
  · rw [hhw]; omega
  · rw [hhw]; omega
  · intro cmp' m'
    by_cases hp : m'.pending = []
    · simp only [sqfs_meta_writer_flush, if_pos hp]
      omega
    · simp only [sqfs_meta_writer_flush, if_neg hp, List.length_append, encodeBlock,
        List.length_cons]
      have := storedPayload_length_le cmp' m'.pending
      omega

/-- Witness for C8 at a concrete input: a two-byte payload and a
compressor that always fails. -/
theorem claim_C8_incompressible_flush_witness :
    (MetaWriter.mk [5, 6] 0 []).pending ≠ []
      ∧ (MetaWriter.mk [5, 6] 0 []).pending.length ≤ capacity
      ∧ (∀ c, cmpNone (MetaWriter.mk [5, 6] 0 []).pending = some c →
          (MetaWriter.mk [5, 6] 0 []).pending.length ≤ c.length)
      ∧ ((sqfs_meta_writer_flush cmpNone ⟨[5, 6], 0, []⟩).out
            = [] ++ (headerWord cmpNone [5, 6] % 256 :: headerWord cmpNone [5, 6] / 256
                :: [5, 6])
          ∧ storedUncompressed cmpNone [5, 6] = true
          ∧ headerWord cmpNone [5, 6] % 32768 = 2
          ∧ 32768 ≤ headerWord cmpNone [5, 6]
          ∧ ∀ (cmp' : List Nat → Option (List Nat)) (m' : MetaWriter),
              (sqfs_meta_writer_flush cmp' m').out.length
                ≤ m'.out.length + 2 + m'.pending.length) := by
  refine ⟨by decide, by decide, fun c h => Option.noConfusion h, ?_⟩
  exact claim_C8_incompressible_flush cmpNone ⟨[5, 6], 0, []⟩
    (by decide) (by decide) (fun c h => Option.noConfusion h)

/-- Claim C7: for every reader window `[start, limit)` — including the
degenerate `start = limit` — a seek to a `block_start` strictly below
`start` or at/above `limit` fails with `OutOfBounds`, returning no
reader state (so no block from the target is loaded). -/
theorem claim_C7_seek_out_of_bounds (decomp : List Nat → Option (List Nat))
    (m : MetaReader) (bs off : Nat)
    (h : bs < m.start ∨ m.limit ≤ bs) :
    sqfs_meta_reader_seek decomp m bs off = .error .outOfBounds
      ∧ ∀ m' : MetaReader, m'.start = m'.limit →
          ∀ bs' off', sqfs_meta_reader_seek decomp m' bs' off' = .error .outOfBounds := by
  constructor
  · simp [sqfs_meta_reader_seek, h]
  · intro m' heq bs' off'
    have h' : bs' < m'.start ∨ m'.limit ≤ bs' := by omega
    simp [sqfs_meta_reader_seek, h']

/-- Witness for C7 at a concrete input: window `[4, 6)`, seek to 6. -/
theorem claim_C7_seek_out_of_bounds_witness :
    ((6 : Nat) < (sqfs_meta_reader_create [] 4 6).start
        ∨ (sqfs_meta_reader_create [] 4 6).limit ≤ 6)
      ∧ (sqfs_meta_reader_seek cmpNone (sqfs_meta_reader_create [] 4 6) 6 0
            = .error .outOfBounds
        ∧ ∀ m' : MetaReader, m'.start = m'.limit →
            ∀ bs' off', sqfs_meta_reader_seek cmpNone m' bs' off'
              = .error .outOfBounds) := by
  have h : (6 : Nat) < (sqfs_meta_reader_create [] 4 6).start
      ∨ (sqfs_meta_reader_create [] 4 6).limit ≤ 6 := by
    right; exact le_refl _
  exact ⟨h, claim_C7_seek_out_of_bounds cmpNone (sqfs_meta_reader_create [] 4 6) 6 0 h⟩

theorem length_encodeBlock (cmp : List Nat → Option (List Nat)) (p : List Nat) :
    (encodeBlock cmp p).length = 2 + (storedPayload cmp p).length := by
  simp only [encodeBlock, List.length_cons]
  omega

theorem encodeChain_append (cmp : List Nat → Option (List Nat))
    (a b : List (List Nat)) :
    encodeChain cmp (a ++ b) = encodeChain cmp a ++ encodeChain cmp b := by
  induction a with
  | nil => simp [encodeChain]
  | cons p ps ih => simp [encodeChain, ih, List.append_assoc]

theorem length_le_encodeChain (cmp : List Nat → Option (List Nat))
    (blks : List (List Nat)) :
    blks.length ≤ (encodeChain cmp blks).length := by
  induction blks with
  | nil => simp [encodeChain]
  | cons p ps ih =>
    simp only [encodeChain, List.length_append, List.length_cons, length_encodeBlock]
    omega

theorem storedPayload_eq_of_unc (cmp : List Nat → Option (List Nat)) (p : List Nat)
    (h : storedUncompressed cmp p = true) :
    storedPayload cmp p = p := by
  unfold storedPayload
  unfold storedUncompressed at h
  rcases hc : cmp p with _ | c
  · rfl
  · rw [hc] at h
    by_cases hlt : c.length < p.length
    · simp [hlt] at h
    · simp [hlt]

theorem storedPayload_of_comp (cmp : List Nat → Option (List Nat)) (p : List Nat)
    (h : storedUncompressed cmp p = false) :
    ∃ c, cmp p = some c ∧ c.length < p.length ∧ storedPayload cmp p = c := by
  unfold storedPayload
  unfold storedUncompressed at h
  rcases hc : cmp p with _ | c
  · rw [hc] at h; simp at h
  · rw [hc] at h
    by_cases hlt : c.length < p.length
    · exact ⟨c, rfl, hlt, by simp [hlt]⟩
    · simp [hlt] at h

theorem loadBlock_at (decomp : List Nat → Option (List Nat))
    (pre rest : List Nat) (b0 b1 : Nat) :
    loadBlock decomp (pre ++ (b0 :: b1 :: rest)) pre.length
      = (if (b0 + 256 * b1) % 32768 ≤ rest.length then
           if 32768 ≤ b0 + 256 * b1 then
             .ok (rest.take ((b0 + 256 * b1) % 32768), (b0 + 256 * b1) % 32768)
           else
             match decomp (rest.take ((b0 + 256 * b1) % 32768)) with
             | some d =>
               if d.length ≤ capacity then .ok (d, (b0 + 256 * b1) % 32768)
               else .error .corrupt
             | none => .error .compression
         else .error .io) := by
  unfold loadBlock
  rw [List.drop_left]

theorem loadBlock_head (cmp decomp : List Nat → Option (List Nat))
    (hcd : ∀ p c, cmp p = some c → c.length < p.length → decomp c = some p)
    (pre rest2 p : List Nat) (hcap : p.length ≤ capacity) :
    loadBlock decomp (pre ++ (encodeBlock cmp p ++ rest2)) pre.length
      = .ok (p, (storedPayload cmp p).length) := by
  have hsl : (storedPayload cmp p).length ≤ p.length := storedPayload_length_le cmp p
  have hsl15 : (storedPayload cmp p).length < 32768 := by
    have hc8 : capacity = 8192 := rfl
    omega
  have hcons : encodeBlock cmp p ++ rest2
      = headerWord cmp p % 256 :: headerWord cmp p / 256
          :: (storedPayload cmp p ++ rest2) := by
    simp [encodeBlock]
  rw [hcons, loadBlock_at, Nat.mod_add_div]
  by_cases huc : storedUncompressed cmp p = true
  · have hhw : headerWord cmp p = (storedPayload cmp p).length + 32768 := by
      simp [headerWord, huc]
    have hsz : headerWord cmp p % 32768 = (storedPayload cmp p).length := by omega
    have hle : headerWord cmp p % 32768 ≤ (storedPayload cmp p ++ rest2).length := by
      simp only [List.length_append]
      omega
    rw [if_pos hle, if_pos (by omega : 32768 ≤ headerWord cmp p), hsz, List.take_left,
      storedPayload_eq_of_unc cmp p huc]
  · have huc' : storedUncompressed cmp p = false := by
      revert huc; cases storedUncompressed cmp p <;> simp
    obtain ⟨c, hc, hlt, hsp⟩ := storedPayload_of_comp cmp p huc'
    have hhw : headerWord cmp p = (storedPayload cmp p).length := by
      simp [headerWord, huc']
    have hsz : headerWord cmp p % 32768 = (storedPayload cmp p).length := by omega
    have hle : headerWord cmp p % 32768 ≤ (storedPayload cmp p ++ rest2).length := by
      simp only [List.length_append]
      omega
    rw [if_pos hle, if_neg (by omega : ¬ 32768 ≤ headerWord cmp p), hsz, List.take_left]
    rw [hsp, hcd p c hc hlt]
    simp [hcap]

theorem readGo_ok (cmp decomp : List Nat → Option (List Nat))
    (hcd : ∀ p c, cmp p = some c → c.length < p.length → decomp c = some p) :
    ∀ (fuel : Nat) (b : List Nat) (rest : List (List Nat)) (o n : Nat)
      (m : MetaReader) (pre : List Nat),
      (∀ q ∈ b :: rest, q.length ≤ capacity) →
      m.img = pre ++ encodeChain cmp (b :: rest) →
      m.blockStart = pre.length →
      m.start ≤ m.blockStart →
      m.img.length < m.limit →
      m.block = some (b, (storedPayload cmp b).length) →
      m.offset = o →
      o ≤ b.length →
      o + n ≤ b.length + rest.flatten.length →
      n + rest.length + 1 ≤ fuel →
      ∃ m', readGo decomp fuel m n = .ok ((b.drop o ++ rest.flatten).take n, m') := by
  intro fuel
  induction fuel with
  | zero =>
    intro b rest o n m pre _ _ _ _ _ _ _ _ _ hfuel
    omega
  | succ f ih =>
    intro b rest o n m pre hcap himg hbs hst hlim hblk hoff hole hbytes hfuel
    cases n with
    | zero => exact ⟨m, by simp [readGo]⟩
    | succ n =>
      subst hoff
      by_cases hlt : m.offset < b.length
      · obtain ⟨m', hm'⟩ := ih b rest (m.offset + 1) n
          { m with offset := m.offset + 1 } pre hcap himg hbs hst hlim hblk
          rfl (by omega) (by omega) (by omega)
        refine ⟨m', ?_⟩
        rw [hblk] at hm'
        simp only [readGo, hblk]
        rw [dif_pos hlt]
        simp only [hm']
        have hdrop : b.drop m.offset = b.get ⟨m.offset, hlt⟩ :: b.drop (m.offset + 1) :=
          (List.getElem_cons_drop b m.offset hlt).symm
        rw [hdrop]
        rfl
      · have hoeq : m.offset = b.length := by omega
        cases rest with
        | nil =>
          exfalso
          simp only [List.flatten_nil, List.length_nil] at hbytes
          omega
        | cons b' rest' =>
          have hsl : (storedPayload cmp b).length ≤ b.length :=
            storedPayload_length_le cmp b
          have hencb : (encodeBlock cmp b).length = 2 + (storedPayload cmp b).length :=
            length_encodeBlock cmp b
          have hbs' : m.blockStart + 2 + (storedPayload cmp b).length
              = (pre ++ encodeBlock cmp b).length := by
            simp only [List.length_append, hencb, hbs]
            omega
          have himg' : m.img = (pre ++ encodeBlock cmp b)
              ++ (encodeBlock cmp b' ++ encodeChain cmp rest') := by
            rw [himg]
            simp [encodeChain, List.append_assoc]
          have himglen : (pre ++ encodeBlock cmp b).length ≤ m.img.length := by
            rw [himg']
            simp only [List.length_append]
            omega
          have hnb : ¬ (m.blockStart + 2 + (storedPayload cmp b).length < m.start
              ∨ m.limit ≤ m.blockStart + 2 + (storedPayload cmp b).length) := by
            push_neg
            constructor
            · omega
            · omega
          have hload := loadBlock_head cmp decomp hcd (pre ++ encodeBlock cmp b)
            (encodeChain cmp rest') b' (hcap b' (by simp))
          obtain ⟨m', hm'⟩ := ih b' rest' 0 (n + 1)
            { m with blockStart := m.blockStart + 2 + (storedPayload cmp b).length,
                     block := some (b', (storedPayload cmp b').length), offset := 0 }
            (pre ++ encodeBlock cmp b)
            (by intro q hq; exact hcap q (by simp at hq ⊢; tauto))
            himg' hbs' (by simp only []; omega) (by simp only []; exact hlim) rfl rfl
            (by omega)
            (by
              simp only [List.flatten_cons, List.length_append] at hbytes ⊢
              omega)
            (by simp at hfuel ⊢; omega)
          refine ⟨m', ?_⟩
          rw [← himg', ← hbs'] at hload
          simp only [readGo, hblk]
          rw [dif_neg hlt, if_neg hnb]
          simp only [hload, hm']
          have hdz : b.drop m.offset = [] := by rw [hoeq]; exact List.drop_length b
          simp [hdz]

theorem capacity_pos : 0 < capacity := by norm_num [capacity]

theorem append_cons (cmp : List Nat → Option (List Nat)) (m : MetaWriter)
    (x : Nat) (r : List Nat) :
    sqfs_meta_writer_append cmp m (x :: r)
      = sqfs_meta_writer_append cmp (appendByte cmp m x) r := rfl

theorem finalOut_cons_flush (cmp : List Nat → Option (List Nat)) (ops : List WOp)
    (m : MetaWriter) :
    finalOut cmp (.flush :: ops) m = finalOut cmp ops (sqfs_meta_writer_flush cmp m) := rfl

theorem finalOut_cons_append (cmp : List Nat → Option (List Nat)) (r : List Nat)
    (ops : List WOp) (m : MetaWriter) :
    finalOut cmp (.append r :: ops) m
      = finalOut cmp ops (sqfs_meta_writer_append cmp m r) := rfl

theorem flush_view (cmp : List Nat → Option (List Nat)) (m : MetaWriter)
    (blks : List (List Nat)) (hv : WView cmp m blks) (hp : m.pending ≠ []) :
    WView cmp (sqfs_meta_writer_flush cmp m) (blks ++ [m.pending]) := by
  obtain ⟨hout, hbs, hpl, hval⟩ := hv
  refine ⟨?_, ?_, ?_, ?_⟩
  · simp only [sqfs_meta_writer_flush, if_neg hp, encodeChain_append, hout,
      encodeChain, List.append_nil]
  · simp only [sqfs_meta_writer_flush, if_neg hp, List.length_append, hbs]
  · simp only [sqfs_meta_writer_flush, if_neg hp, List.length_nil]
    exact capacity_pos
  · intro p hpm
    rcases List.mem_append.mp hpm with h | h
    · exact hval p h
    · simp only [List.mem_singleton] at h
      subst h
      exact ⟨hp, hpl.le⟩

theorem append_view (cmp : List Nat → Option (List Nat)) :
    ∀ (r : List Nat) (m : MetaWriter) (blks : List (List Nat)),
      WView cmp m blks →
      ∃ δ, WView cmp (sqfs_meta_writer_append cmp m r) (blks ++ δ)
        ∧ δ.flatten ++ (sqfs_meta_writer_append cmp m r).pending = m.pending ++ r
        ∧ ((δ = [] ∧ (sqfs_meta_writer_append cmp m r).pending = m.pending ++ r)
            ∨ ∃ ext δrest, δ = (m.pending ++ ext) :: δrest) := by
  intro r
  induction r with
  | nil =>
    intro m blks hv
    refine ⟨[], by simpa using hv, by simp [sqfs_meta_writer_append], ?_⟩
    exact Or.inl ⟨rfl, by simp [sqfs_meta_writer_append]⟩
  | cons x r ih =>
    intro m blks hv
    obtain ⟨hout, hbs, hpl, hval⟩ := hv
    by_cases hful : (m.pending ++ [x]).length = capacity
    · have hne : m.pending ++ [x] ≠ [] := by simp
      have hm1 : appendByte cmp m x
          = { pending := [],
              blockStart := m.blockStart + (encodeBlock cmp (m.pending ++ [x])).length,
              out := m.out ++ encodeBlock cmp (m.pending ++ [x]) } := by
        simp [appendByte, hful, sqfs_meta_writer_flush, hne]
      have hv1 : WView cmp (appendByte cmp m x) (blks ++ [m.pending ++ [x]]) := by
        rw [hm1]
        refine ⟨?_, ?_, ?_, ?_⟩
        · simp only [encodeChain_append, hout, encodeChain, List.append_nil]
        · simp only [List.length_append, hbs]
        · simp only [List.length_nil]
          exact capacity_pos
        · intro p hpm
          rcases List.mem_append.mp hpm with h | h
          · exact hval p h
          · simp only [List.mem_singleton] at h
            subst h
            exact ⟨hne, le_of_eq hful⟩
      obtain ⟨δ', hv', hflat', hdisj'⟩ := ih (appendByte cmp m x)
        (blks ++ [m.pending ++ [x]]) hv1
      refine ⟨(m.pending ++ [x]) :: δ', ?_, ?_, Or.inr ⟨[x], δ', rfl⟩⟩
      · rw [append_cons]
        have : blks ++ (m.pending ++ [x]) :: δ' = (blks ++ [m.pending ++ [x]]) ++ δ' := by
          simp
        rw [this]
        exact hv'
      · rw [append_cons]
        simp only [List.flatten_cons, List.append_assoc]
        rw [hflat']
        simp [hm1]
    · have hful' : ¬ (m.pending.length + 1 = capacity) := by simpa using hful
      have hm1 : appendByte cmp m x = { m with pending := m.pending ++ [x] } := by
        simp [appendByte, hful']
      have hv1 : WView cmp (appendByte cmp m x) blks := by
        rw [hm1]
        refine ⟨hout, hbs, ?_, hval⟩
        simp only [List.length_append, List.length_cons, List.length_nil]
        have : (m.pending ++ [x]).length ≠ capacity := hful
        simp only [List.length_append, List.length_cons, List.length_nil] at this
        omega
      obtain ⟨δ', hv', hflat', hdisj'⟩ := ih (appendByte cmp m x) blks hv1
      refine ⟨δ', by rw [append_cons]; exact hv', ?_, ?_⟩
      · rw [append_cons]
        rw [hflat']
        simp [hm1]
      · rcases hdisj' with ⟨hδ, hpend⟩ | ⟨ext, δrest, hδ⟩
        · left
          refine ⟨hδ, ?_⟩
          rw [append_cons, hpend]
          simp [hm1]
        · right
          refine ⟨[x] ++ ext, δrest, ?_⟩
          rw [hδ]
          simp [hm1]

theorem runWriter_tail (cmp : List Nat → Option (List Nat)) :
    ∀ (ops : List WOp) (m : MetaWriter) (blks : List (List Nat)),
      WView cmp m blks →
      ∃ tail,
        finalOut cmp ops m = encodeChain cmp (blks ++ tail)
          ∧ tail.flatten = m.pending ++ appendedBytes ops
          ∧ (∀ p ∈ tail, p ≠ [] ∧ p.length ≤ capacity)
          ∧ ((tail = [] ∧ m.pending = [])
              ∨ ∃ ext tailRest, tail = (m.pending ++ ext) :: tailRest) := by
  intro ops
  induction ops with
  | nil =>
    intro m blks hv
    obtain ⟨hout, hbs, hpl, hval⟩ := hv
    by_cases hp : m.pending = []
    · refine ⟨[], ?_, ?_, by simp, Or.inl ⟨rfl, hp⟩⟩
      · simp [finalOut, runWriter, sqfs_meta_writer_flush, hp, hout]
      · simp [hp, appendedBytes]
    · refine ⟨[m.pending], ?_, ?_, ?_, Or.inr ⟨[], [], by simp⟩⟩
      · simp [finalOut, runWriter, sqfs_meta_writer_flush, hp, hout,
          encodeChain_append, encodeChain]
      · simp [appendedBytes]
      · intro p hpm
        simp only [List.mem_singleton] at hpm
        subst hpm
        exact ⟨hp, hpl.le⟩
  | cons op ops ih =>
    intro m blks hv
    cases op with
    | flush =>
      by_cases hp : m.pending = []
      · have hm : sqfs_meta_writer_flush cmp m = m := by
          simp [sqfs_meta_writer_flush, hp]
        obtain ⟨tail, h1, h2, h3, h4⟩ := ih m blks hv
        refine ⟨tail, ?_, ?_, h3, h4⟩
        · rw [finalOut_cons_flush, hm]
          exact h1
        · rw [show appendedBytes (.flush :: ops) = appendedBytes ops from rfl]
          exact h2
      · have hv' := flush_view cmp m blks ⟨hv.1, hv.2.1, hv.2.2.1, hv.2.2.2⟩ hp
        obtain ⟨tail', h1, h2, h3, h4⟩ := ih (sqfs_meta_writer_flush cmp m)
          (blks ++ [m.pending]) hv'
        have hpend0 : (sqfs_meta_writer_flush cmp m).pending = [] := by
          simp [sqfs_meta_writer_flush, hp]
        refine ⟨m.pending :: tail', ?_, ?_, ?_, Or.inr ⟨[], tail', by simp⟩⟩
        · rw [finalOut_cons_flush, h1]
          rw [show blks ++ m.pending :: tail' = (blks ++ [m.pending]) ++ tail' by simp]
        · simp only [List.flatten_cons, h2, hpend0, List.nil_append]
          rw [show appendedBytes (.flush :: ops) = appendedBytes ops from rfl]
        · intro p hpm
          rcases List.mem_cons.mp hpm with h | h
          · subst h
            exact ⟨hp, hv.2.2.1.le⟩
          · exact h3 p h
    | append r =>
      obtain ⟨δ, hvA, hflatA, hdA⟩ := append_view cmp r m blks hv
      obtain ⟨tail', h1, h2, h3, h4⟩ := ih (sqfs_meta_writer_append cmp m r)
        (blks ++ δ) hvA
      refine ⟨δ ++ tail', ?_, ?_, ?_, ?_⟩
      · rw [finalOut_cons_append, h1, List.append_assoc]
      · rw [show appendedBytes (.append r :: ops) = r ++ appendedBytes ops from rfl]
        rw [List.flatten_append, h2]
        calc δ.flatten ++ ((sqfs_meta_writer_append cmp m r).pending ++ appendedBytes ops)
            = (δ.flatten ++ (sqfs_meta_writer_append cmp m r).pending)
                ++ appendedBytes ops := by rw [List.append_assoc]
          _ = (m.pending ++ r) ++ appendedBytes ops := by rw [hflatA]
          _ = m.pending ++ (r ++ appendedBytes ops) := by rw [List.append_assoc]
      · intro p hpm
        rcases List.mem_append.mp hpm with h | h
        · exact hvA.2.2.2 p (List.mem_append.mpr (Or.inr h))
        · exact h3 p h
      · rcases hdA with ⟨hδ, hpend⟩ | ⟨ext, δrest, hδ⟩
        · subst hδ
          rcases h4 with ⟨ht', hp'⟩ | ⟨ext, tr, heq⟩

          · left
            rw [hpend] at hp'
            have := List.append_eq_nil.mp hp'
            exact ⟨by simp [ht'], this.1⟩
          · right
            rw [hpend] at heq
            exact ⟨r ++ ext, tr, by simp only [List.nil_append, heq, List.append_assoc]⟩
        · right
          exact ⟨ext, δrest ++ tail', by rw [hδ]; simp⟩

theorem runWriter_roundtrip (cmp decomp : List Nat → Option (List Nat))
    (hcd : ∀ p c, cmp p = some c → c.length < p.length → decomp c = some p) :
    ∀ (ops : List WOp) (m : MetaWriter) (blks : List (List Nat)),
      WView cmp m blks →
      (∀ r, WOp.append r ∈ ops → r ≠ []) →
      ∀ pr ∈ (runWriter cmp ops m).1,
        ∃ mr mr',
          sqfs_meta_reader_seek decomp
              (sqfs_meta_reader_create (finalOut cmp ops m) 0
                ((finalOut cmp ops m).length + 1)) pr.blockStart pr.offset = .ok mr
          ∧ sqfs_meta_reader_read decomp mr pr.record.length = .ok (pr.record, mr') := by
  intro ops
  induction ops with
  | nil =>
    intro m blks hv hne pr hpr
    simp [runWriter] at hpr
  | cons op ops ih =>
    intro m blks hv hne
    cases op with
    | flush =>
      intro pr hpr
      have hne' : ∀ r, WOp.append r ∈ ops → r ≠ [] := fun r hr =>
        hne r (List.mem_cons_of_mem _ hr)
      have hpr' : pr ∈ (runWriter cmp ops (sqfs_meta_writer_flush cmp m)).1 := hpr
      rw [finalOut_cons_flush]
      by_cases hp : m.pending = []
      · have hm : sqfs_meta_writer_flush cmp m = m := by
          simp [sqfs_meta_writer_flush, hp]
        rw [hm] at hpr' ⊢
        exact ih m blks hv hne' pr hpr'
      · exact ih (sqfs_meta_writer_flush cmp m) (blks ++ [m.pending])
          (flush_view cmp m blks hv hp) hne' pr hpr'
    | append r =>
      intro pr hpr
      have hne' : ∀ r', WOp.append r' ∈ ops → r' ≠ [] := fun r' hr =>
        hne r' (List.mem_cons_of_mem _ hr)
      have hrne : r ≠ [] := hne r (List.mem_cons_self _ _)
      have hpr' : pr ∈ (⟨m.blockStart, m.pending.length, r⟩ : PosRec)
          :: (runWriter cmp ops (sqfs_meta_writer_append cmp m r)).1 := hpr
      rcases List.mem_cons.mp hpr' with heq | hmem
      · -- the record appended at this step
        subst heq
        obtain ⟨tail, hfin, hflat, hvalT, hdisj⟩ :=
          runWriter_tail cmp (.append r :: ops) m blks hv
        rw [show appendedBytes (.append r :: ops) = r ++ appendedBytes ops from rfl]
          at hflat
        have htail : ∃ ext tailRest, tail = (m.pending ++ ext) :: tailRest := by
          rcases hdisj with ⟨ht, hpd⟩ | h
          · exfalso
            rw [ht] at hflat
            apply hrne
            have := congrArg List.length hflat
            simp at this
            have hr0 : r.length = 0 := by omega
            exact List.length_eq_zero.mp hr0
          · exact h
        obtain ⟨ext, tailRest, htl⟩ := htail
        obtain ⟨hout, hbs, hpl, hval⟩ := hv
        subst htl
        have hcapHd : (m.pending ++ ext).length ≤ capacity :=
          (hvalT _ (List.mem_cons_self _ _)).2
        have hcapT : ∀ q ∈ (m.pending ++ ext) :: tailRest, q.length ≤ capacity :=
          fun q hq => (hvalT q hq).2
        have himg2 : finalOut cmp (.append r :: ops) m
            = encodeChain cmp blks
              ++ (encodeBlock cmp (m.pending ++ ext) ++ encodeChain cmp tailRest) := by
          rw [hfin, encodeChain_append]
          rfl
        have hbs2 : m.blockStart = (encodeChain cmp blks).length := by
          rw [hbs, hout]
        have hflen : m.pending.length + ext.length + tailRest.flatten.length
            = m.pending.length + (r.length + (appendedBytes ops).length) := by
          have := congrArg List.length hflat
          simp only [List.flatten_cons, List.length_append] at this
          omega
        have htlen : tailRest.length + 1
            ≤ (encodeBlock cmp (m.pending ++ ext)).length
              + (encodeChain cmp tailRest).length := by
          have h1 := length_le_encodeChain cmp ((m.pending ++ ext) :: tailRest)
          simp only [List.length_cons, encodeChain, List.length_append] at h1
          omega
        rw [himg2, hbs2]
        show ∃ mr mr',
          sqfs_meta_reader_seek decomp
              (sqfs_meta_reader_create
                (encodeChain cmp blks
                  ++ (encodeBlock cmp (m.pending ++ ext) ++ encodeChain cmp tailRest)) 0
                ((encodeChain cmp blks
                  ++ (encodeBlock cmp (m.pending ++ ext)
                      ++ encodeChain cmp tailRest)).length + 1))
              (encodeChain cmp blks).length m.pending.length = .ok mr
          ∧ sqfs_meta_reader_read decomp mr r.length = .ok (r, mr')
        have hload := loadBlock_head cmp decomp hcd (encodeChain cmp blks)
          (encodeChain cmp tailRest) (m.pending ++ ext) hcapHd
        obtain ⟨mr', hread⟩ := readGo_ok cmp decomp hcd
          (r.length
            + ((encodeChain cmp blks
                ++ (encodeBlock cmp (m.pending ++ ext)
                    ++ encodeChain cmp tailRest)).length + 1) + 1)
          (m.pending ++ ext) tailRest m.pending.length r.length
          ⟨encodeChain cmp blks
              ++ (encodeBlock cmp (m.pending ++ ext) ++ encodeChain cmp tailRest),
            0,
            (encodeChain cmp blks
              ++ (encodeBlock cmp (m.pending ++ ext)
                  ++ encodeChain cmp tailRest)).length + 1,
            (encodeChain cmp blks).length,
            some (m.pending ++ ext, (storedPayload cmp (m.pending ++ ext)).length),
            m.pending.length⟩
          (encodeChain cmp blks)
          hcapT rfl rfl (Nat.zero_le _) (Nat.lt_succ_self _) rfl rfl
          (by simp only [List.length_append]; omega)
          (by simp only [List.length_append]; omega)
          (by simp only [List.length_append]; omega)
        refine ⟨⟨encodeChain cmp blks
            ++ (encodeBlock cmp (m.pending ++ ext) ++ encodeChain cmp tailRest),
          0,
          (encodeChain cmp blks
            ++ (encodeBlock cmp (m.pending ++ ext)
                ++ encodeChain cmp tailRest)).length + 1,
          (encodeChain cmp blks).length,
          some (m.pending ++ ext, (storedPayload cmp (m.pending ++ ext)).length),
          m.pending.length⟩, mr', ?_, ?_⟩
        · -- the seek succeeds and loads the head block of the tail
          have hnb : ¬ ((encodeChain cmp blks).length < (0 : Nat)
              ∨ (encodeChain cmp blks
                  ++ (encodeBlock cmp (m.pending ++ ext)
                      ++ encodeChain cmp tailRest)).length + 1
                ≤ (encodeChain cmp blks).length) := by
            push_neg
            refine ⟨Nat.zero_le _, ?_⟩
            simp only [List.length_append]
            omega
          simp only [sqfs_meta_reader_seek, sqfs_meta_reader_create]
          rw [if_neg hnb]
          simp only [seekLoad, hload]
          rw [if_pos (by simp : m.pending.length ≤ (m.pending ++ ext).length)]
        · -- the read returns the record
          show readGo decomp _ _ r.length = _
          have hdl : (m.pending ++ ext).drop m.pending.length = ext :=
            List.drop_left m.pending ext
          have hext : ext ++ tailRest.flatten = r ++ appendedBytes ops := by
            have h0 : m.pending ++ (ext ++ tailRest.flatten)
                = m.pending ++ (r ++ appendedBytes ops) := by
              calc m.pending ++ (ext ++ tailRest.flatten)
                  = (m.pending ++ ext) ++ tailRest.flatten := by
                    rw [List.append_assoc]
                _ = ((m.pending ++ ext) :: tailRest).flatten := by
                    rw [List.flatten_cons]
                _ = m.pending ++ (r ++ appendedBytes ops) := hflat
            exact List.append_cancel_left h0
          rw [hdl, hext, List.take_left] at hread
          exact hread
      · -- a record appended by the remaining operations
        obtain ⟨δ, hvA, _, _⟩ := append_view cmp r m blks hv
        rw [finalOut_cons_append]
        exact ih (sqfs_meta_writer_append cmp m r) (blks ++ δ) hvA hne' pr hmem

/-- Claim C1: round-trip — for every sequence of byte records appended
through the MetaWriter (with intervening implicit or explicit flushes)
and then written out, seeking a MetaReader to each `(block_start, offset)`
position recorded by `get_position` and reading the record's length
reproduces the original bytes exactly.  The statement covers records of
any size, below the 8192-byte block capacity or spanning multiple
blocks; the compressor/decompressor pair is assumed correct
(decompression inverts any successful, strictly shrinking compression)
and records are nonempty. -/
theorem claim_C1_roundtrip (cmp decomp : List Nat → Option (List Nat))
    (hcd : ∀ p c, cmp p = some c → c.length < p.length → decomp c = some p)
    (ops : List WOp)
    (hne : ∀ r, WOp.append r ∈ ops → r ≠ []) :
    ∀ pr ∈ (runWriter cmp ops initWriter).1,
      ∃ mr mr',
        sqfs_meta_reader_seek decomp
            (sqfs_meta_reader_create (finalOut cmp ops initWriter) 0
              ((finalOut cmp ops initWriter).length + 1)) pr.blockStart pr.offset
          = .ok mr
        ∧ sqfs_meta_reader_read decomp mr pr.record.length = .ok (pr.record, mr') := by
  have hv : WView cmp initWriter [] := ⟨rfl, rfl, capacity_pos, by simp⟩
  exact runWriter_roundtrip cmp decomp hcd ops initWriter [] hv hne

/-- Witness for C1 at a concrete input: two records with an explicit
flush in between, under the never-compressing compressor. -/
theorem claim_C1_roundtrip_witness :
    (∀ p c, cmpNone p = some c → c.length < p.length → cmpNone c = some p)
      ∧ (∀ r, WOp.append r
            ∈ ([.append [1, 2, 3], .flush, .append [4, 5]] : List WOp) → r ≠ [])
      ∧ ∀ pr ∈ (runWriter cmpNone [.append [1, 2, 3], .flush, .append [4, 5]]
            initWriter).1,
          ∃ mr mr',
            sqfs_meta_reader_seek cmpNone
                (sqfs_meta_reader_create
                  (finalOut cmpNone [.append [1, 2, 3], .flush, .append [4, 5]]
                    initWriter) 0
                  ((finalOut cmpNone [.append [1, 2, 3], .flush, .append [4, 5]]
                    initWriter).length + 1)) pr.blockStart pr.offset
              = .ok mr
            ∧ sqfs_meta_reader_read cmpNone mr pr.record.length
              = .ok (pr.record, mr') := by
  have hcd : ∀ p c, cmpNone p = some c → c.length < p.length → cmpNone c = some p :=
    fun p c h => absurd h (by simp [cmpNone])
  have hne : ∀ r, WOp.append r
      ∈ ([.append [1, 2, 3], .flush, .append [4, 5]] : List WOp) → r ≠ [] := by
    intro r hr
    simp only [List.mem_cons, List.not_mem_nil, or_false] at hr
    rcases hr with h | h | h
    · injection h with h'
      subst h'
      simp
    · exact WOp.noConfusion h
    · injection h with h'
      subst h'
      simp
  exact ⟨hcd, hne, claim_C1_roundtrip cmpNone cmpNone hcd _ hne⟩

/-- Claim C6: for a directory stored as header H1 (3 entries) followed
by header H2 (2 entries), five successive `readdir` calls yield exactly
the 5 entries in stored order, each inode number computed as the owning
header's inode-number base plus the entry's delta and each inode
reference as (owning header's block, entry offset); the sixth call
returns the positive end-of-directory signal (not an error); and after
`sqfs_readdir_state_reset` the identical 5-entry sequence is
reproduced. -/
theorem claim_C6_directory_iteration :
    (readdirN cmpNone dirReader dirState0 6).1
        = [.ok (.entry dirE1 (500 + 1) (1000, 10)),
           .ok (.entry dirE2 (500 + 2) (1000, 20)),
           .ok (.entry dirE3 (500 + 3) (1000, 30)),
           .ok (.entry dirE4 (600 + 4) (2000, 40)),
           .ok (.entry dirE5 (600 + 5) (2000, 50)),
           .ok .endOfDir]
      ∧ (readdirN cmpNone (readdirN cmpNone dirReader dirState0 6).2.1
            (sqfs_readdir_state_reset (readdirN cmpNone dirReader dirState0 6).2.2)
            5).1
        = [.ok (.entry dirE1 (500 + 1) (1000, 10)),
           .ok (.entry dirE2 (500 + 2) (1000, 20)),
           .ok (.entry dirE3 (500 + 3) (1000, 30)),
           .ok (.entry dirE4 (600 + 4) (2000, 40)),
           .ok (.entry dirE5 (600 + 5) (2000, 50))] :=
  ⟨rfl, rfl⟩

end Sqfs
